import Mathlib

/-!
Verification of the GongXi-Mail gateway core against its specification.

The server code (TypeScript) is shallowly embedded: JS strings become
`List Char`, JS objects with boolean values become association lists,
database tables become lists of rows, and each request handler becomes a
pure function from its inputs (and the relevant store state) to its
response (and the updated store state).  External libraries that the
repository merely calls (Node `crypto`, Redis, the JS regex engine, the
HTTP stack) are modelled by explicit parameters or by abstract structures
whose assumed properties appear as hypotheses of the theorems.
-/

set_option maxHeartbeats 1000000

/-- A JavaScript string, modelled as its list of characters. -/
abbrev JStr := List Char

/-- Characters treated as whitespace by `String.prototype.trim` (the ASCII
whitespace subset, which covers the permission keys in scope). -/
def jsIsWs (c : Char) : Bool :=
  c.toNat = 9 || c.toNat = 10 || c.toNat = 11 || c.toNat = 12 || c.toNat = 13 || c.toNat = 32

/-- ASCII lower-casing of a single character, as `String.prototype.toLowerCase`
acts on the ASCII range (identical to core `Char.toLower`). -/
def jsLowerChar (c : Char) : Char :=
  Char.toLower c

/-- `String.prototype.trim`: drop whitespace from both ends. -/
def jsTrim (s : JStr) : JStr :=
  ((s.dropWhile jsIsWs).reverse.dropWhile jsIsWs).reverse

/-- The character substitution of the global hyphen-to-underscore replace. -/
def hyphenToUnderscore (c : Char) : Char :=
  if c = '-' then '_' else c

/-- The character substitution of the global underscore-to-hyphen replace
(legacy key lookup). -/
def underscoreToHyphen (c : Char) : Char :=
  if c = '_' then '-' else c

/-- `normalizeApiPermissionKey` from `src/server/src/plugins/api-permissions.ts`:
trim, lower-case, then replace every `-` with `_`. -/
def normalizeApiPermissionKey (key : JStr) : JStr :=
  ((jsTrim key).map jsLowerChar).map hyphenToUnderscore

/-- A permission map (`Record<string, boolean>`), as an association list with
the first binding of a key authoritative (JS object keys are unique). -/
abbrev PermMap := List (JStr × Bool)

/-- JS property read `permissions[key]` on a permission map. -/
def permLookup (m : PermMap) (k : JStr) : Option Bool :=
  (m.find? (fun e => e.1 == k)).map (·.2)

/-- The wildcard keys recognised by the evaluator: `*`, `all`, `__all__`. -/
def wildcardKeys : List JStr :=
  ["*".toList, "all".toList, "__all__".toList]

/-- `isApiPermissionAllowed` from `src/server/src/plugins/api-permissions.ts`:
allow when the map is absent or empty; allow when a wildcard key is mapped to
`true`; otherwise look up the normalized action key, then its hyphenated
variant, and deny when neither is bound. -/
def isApiPermissionAllowed (permissions : Option PermMap) (action : JStr) : Bool :=
  match permissions with
  | none => true
  | some m =>
    if m.length = 0 then true
    else
      let actionKey := normalizeApiPermissionKey action
      if wildcardKeys.any (fun k => permLookup m k == some true) then true
      else
        match permLookup m actionKey with
        | some true => true
        | some false => false
        | none =>
          match permLookup m (actionKey.map underscoreToHyphen) with
          | some true => true
          | some false => false
          | none => false

/-- Modelled from the spec (§4.7), for comparison with the implementation:
the five-row decision table with first match winning. -/
def specPermissionDecision (permissions : Option PermMap) (action : JStr) : Bool :=
  match permissions with
  | none => true
  | some m =>
    if m.length = 0 then true
    else if wildcardKeys.any (fun k => permLookup m k == some true) then true
    else
      match permLookup m (normalizeApiPermissionKey action) with
      | some b => b
      | none =>
        match permLookup m ((normalizeApiPermissionKey action).map underscoreToHyphen) with
        | some b => b
        | none => false

theorem charToNatOfNat (n : Nat) (h : n < 55296) : (Char.ofNat n).toNat = n := by
  rw [Char.ofNat, dif_pos (Or.inl h)]
  rfl

theorem jsLowerChar_idem (c : Char) : jsLowerChar (jsLowerChar c) = jsLowerChar c := by
  unfold jsLowerChar
  by_cases h : c.toNat ≥ 65 ∧ c.toNat ≤ 90
  · have h1 : Char.toLower c = Char.ofNat (c.toNat + 32) := by
      rw [Char.toLower, if_pos h]
    have hv : (Char.ofNat (c.toNat + 32)).toNat = c.toNat + 32 :=
      charToNatOfNat _ (by omega)
    rw [h1, Char.toLower, hv, if_neg (by omega)]
  · have h1 : Char.toLower c = c := by
      rw [Char.toLower, if_neg h]
    rw [h1, h1]

theorem jsIsWs_jsLowerChar (c : Char) : jsIsWs (jsLowerChar c) = jsIsWs c := by
  unfold jsLowerChar
  by_cases h : c.toNat ≥ 65 ∧ c.toNat ≤ 90
  · have hL : jsIsWs (Char.ofNat (c.toNat + 32)) = false := by
      have hv : (Char.ofNat (c.toNat + 32)).toNat = c.toNat + 32 :=
        charToNatOfNat _ (by omega)
      simp only [jsIsWs, hv, Bool.or_eq_false_iff, decide_eq_false_iff_not]
      omega
    have hR : jsIsWs c = false := by
      simp only [jsIsWs, Bool.or_eq_false_iff, decide_eq_false_iff_not]
      omega
    rw [Char.toLower, if_pos h, hL, hR]
  · rw [Char.toLower, if_neg h]

theorem jsIsWs_hyphenToUnderscore (c : Char) :
    jsIsWs (hyphenToUnderscore c) = jsIsWs c := by
  by_cases h : c = '-'
  · subst h; decide
  · rw [hyphenToUnderscore, if_neg h]

theorem jsLowerChar_not_upper (c : Char) :
    ¬((jsLowerChar c).toNat ≥ 65 ∧ (jsLowerChar c).toNat ≤ 90) := by
  unfold jsLowerChar
  by_cases h : c.toNat ≥ 65 ∧ c.toNat ≤ 90
  · rw [Char.toLower, if_pos h, charToNatOfNat _ (by omega)]
    omega
  · rw [Char.toLower, if_neg h]
    exact h

theorem hyphenToUnderscore_idem (c : Char) :
    hyphenToUnderscore (hyphenToUnderscore c) = hyphenToUnderscore c := by
  by_cases h : c = '-'
  · subst h; decide
  · have hc : hyphenToUnderscore c = c := by rw [hyphenToUnderscore, if_neg h]
    rw [hc, hc]

theorem jsLowerChar_hyphenToUnderscore_jsLowerChar (c : Char) :
    jsLowerChar (hyphenToUnderscore (jsLowerChar c)) = hyphenToUnderscore (jsLowerChar c) := by
  have hd : ¬((hyphenToUnderscore (jsLowerChar c)).toNat ≥ 65 ∧
      (hyphenToUnderscore (jsLowerChar c)).toNat ≤ 90) := by
    by_cases h : jsLowerChar c = '-'
    · rw [hyphenToUnderscore, if_pos h]; decide
    · rw [hyphenToUnderscore, if_neg h]; exact jsLowerChar_not_upper c
  show Char.toLower _ = _
  rw [Char.toLower, if_neg hd]

theorem dropWhile_map_pres {α : Type} (f : α → α) (p : α → Bool)
    (hp : ∀ c, p (f c) = p c) (l : List α) :
    (l.map f).dropWhile p = (l.dropWhile p).map f := by
  induction l with
  | nil => rfl
  | cons a t ih =>
    simp only [List.map_cons, List.dropWhile_cons, hp a]
    split
    · exact ih
    · rfl

theorem jsTrim_map (f : Char → Char) (hf : ∀ c, jsIsWs (f c) = jsIsWs c) (s : JStr) :
    jsTrim (s.map f) = (jsTrim s).map f := by
  unfold jsTrim
  rw [dropWhile_map_pres f jsIsWs hf s, ← List.map_reverse,
    dropWhile_map_pres f jsIsWs hf, ← List.map_reverse]

theorem jsTrim_eq_rdropWhile (s : JStr) :
    jsTrim s = List.rdropWhile jsIsWs (s.dropWhile jsIsWs) := rfl

theorem jsTrim_idem (s : JStr) : jsTrim (jsTrim s) = jsTrim s := by
  rw [jsTrim_eq_rdropWhile, jsTrim_eq_rdropWhile]
  have h1 : (List.rdropWhile jsIsWs (s.dropWhile jsIsWs)).dropWhile jsIsWs =
      List.rdropWhile jsIsWs (s.dropWhile jsIsWs) := by
    obtain ⟨t, ht⟩ := List.rdropWhile_prefix jsIsWs (s.dropWhile jsIsWs)
    cases hr : List.rdropWhile jsIsWs (s.dropWhile jsIsWs) with
    | nil => simp
    | cons a r =>
      rw [List.dropWhile_cons]
      have hm : s.dropWhile jsIsWs = a :: (r ++ t) := by
        rw [← ht, hr]
        rfl
      have hidem := List.dropWhile_idempotent jsIsWs s
      rw [hm, List.dropWhile_cons] at hidem
      by_cases hpa : jsIsWs a
      · rw [if_pos hpa] at hidem
        have hle := (List.dropWhile_sublist (l := r ++ t) jsIsWs).length_le
        rw [hidem] at hle
        simp at hle
      · rw [if_neg hpa]
  rw [h1, List.rdropWhile_idempotent]

theorem normalizeApiPermissionKey_idem (key : JStr) :
    normalizeApiPermissionKey (normalizeApiPermissionKey key) = normalizeApiPermissionKey key := by
  unfold normalizeApiPermissionKey
  rw [jsTrim_map hyphenToUnderscore jsIsWs_hyphenToUnderscore,
    jsTrim_map jsLowerChar jsIsWs_jsLowerChar, jsTrim_idem]
  simp only [List.map_map]
  congr 1
  funext c
  simp only [Function.comp_apply]
  rw [jsLowerChar_hyphenToUnderscore_jsLowerChar c, hyphenToUnderscore_idem]

/-- Claim C6: for every permission map and action string, `isApiPermissionAllowed`
equals the spec's five-row decision table with first match winning (absent/empty
map allows; a wildcard key mapped to true allows; then the normalized action key,
then its hyphenated variant, decide explicitly; otherwise deny), and the result
depends only on the normalized action key: it is unchanged by pre-normalizing the
action, and equal for any two actions with the same normalized key. -/
theorem isApiPermissionAllowed_matches_spec_table :
    (∀ m a, isApiPermissionAllowed m a = specPermissionDecision m a) ∧
    (∀ m a, isApiPermissionAllowed m (normalizeApiPermissionKey a) =
      isApiPermissionAllowed m a) ∧
    (∀ m a b, normalizeApiPermissionKey a = normalizeApiPermissionKey b →
      isApiPermissionAllowed m a = isApiPermissionAllowed m b) := by
  refine ⟨?_, ?_, ?_⟩
  · intro m a
    cases m with
    | none => rfl
    | some l =>
      simp only [isApiPermissionAllowed, specPermissionDecision]
      by_cases hlen : l.length = 0
      · simp [hlen]
      · simp only [if_neg hlen]
        by_cases hw : wildcardKeys.any (fun k => permLookup l k == some true) = true
        · simp [hw]
        · simp only [Bool.not_eq_true] at hw
          simp only [hw, Bool.false_eq_true, if_false]
          cases hk : permLookup l (normalizeApiPermissionKey a) with
          | some b => cases b <;> simp [hk]
          | none =>
            cases hk2 : permLookup l ((normalizeApiPermissionKey a).map underscoreToHyphen) with
            | some b => cases b <;> simp [hk, hk2]
            | none => simp [hk, hk2]
  · intro m a
    cases m with
    | none => rfl
    | some l =>
      simp only [isApiPermissionAllowed, normalizeApiPermissionKey_idem]
  · intro m a b h
    cases m with
    | none => rfl
    | some l =>
      simp only [isApiPermissionAllowed, h]

/-- Witness for C6: a concrete map and a concrete pair of actions with the same
normalized key give the same decision. -/
theorem isApiPermissionAllowed_matches_spec_table_witness :
    isApiPermissionAllowed (some [("mail_new".toList, true)]) " MAIL-NEW ".toList =
      isApiPermissionAllowed (some [("mail_new".toList, true)]) "mail_new".toList :=
  isApiPermissionAllowed_matches_spec_table.2.2 _ _ _ (by decide)

/-- `AppError` from `src/server/src/plugins/error.ts`: an error code, a
human-readable message, and the HTTP status it is surfaced with. -/
structure AppError where
  code : String
  message : String
  statusCode : Nat
deriving DecidableEq

/-- Redis value for one rate-limit key: the counter and, once `EXPIRE` has been
issued, the absolute expiry time in milliseconds. -/
structure RateEntry where
  count : Nat
  expiresAt : Option Nat
deriving DecidableEq

/-- A rate-limit key: `rate_limit:api_key:{apiKeyId}:{minuteBucket}`. -/
abbrev RateKey := Nat × Nat

/-- The shared Redis counter store, as an association list. -/
abbrev RateStore := List (RateKey × RateEntry)

/-- Key-value read in an association-list store (Redis `GET`/map read). -/
def assocGet {κ ν : Type} [DecidableEq κ] (st : List (κ × ν)) (k : κ) : Option ν :=
  (st.find? (fun e => e.1 == k)).map (·.2)

/-- Key-value write in an association-list store (Redis `SET`/map write). -/
def assocSet {κ ν : Type} [DecidableEq κ] (st : List (κ × ν)) (k : κ) (v : ν) : List (κ × ν) :=
  (k, v) :: st.filter (fun e => !(e.1 == k))

theorem assocGet_assocSet_self {κ ν : Type} [DecidableEq κ]
    (st : List (κ × ν)) (k : κ) (v : ν) : assocGet (assocSet st k v) k = some v := by
  simp [assocGet, assocSet, List.find?_cons]

theorem find?_filter_other {κ ν : Type} [DecidableEq κ] (k k' : κ) (h : k' ≠ k)
    (st : List (κ × ν)) :
    List.find? (fun e => e.1 == k') (st.filter (fun e => !(e.1 == k))) =
      List.find? (fun e => e.1 == k') st := by
  induction st with
  | nil => rfl
  | cons e t ih =>
    by_cases he : e.1 = k
    · have he1 : (e.1 == k) = true := beq_iff_eq.mpr he
      have he2 : (e.1 == k') = false := by
        rw [beq_eq_false_iff_ne]
        intro hh
        exact h (hh.symm.trans he)
      simp [List.filter_cons, he1, List.find?_cons, he2, ih]
    · have he1 : (e.1 == k) = false := beq_eq_false_iff_ne.mpr he
      by_cases he' : e.1 = k'
      · have he2 : (e.1 == k') = true := beq_iff_eq.mpr he'
        simp [List.filter_cons, he1, List.find?_cons, he2]
      · have he2 : (e.1 == k') = false := beq_eq_false_iff_ne.mpr he'
        simp [List.filter_cons, he1, List.find?_cons, he2, ih]

theorem assocGet_assocSet_ne {κ ν : Type} [DecidableEq κ]
    (st : List (κ × ν)) (k k' : κ) (v : ν) (h : k' ≠ k) :
    assocGet (assocSet st k v) k' = assocGet st k' := by
  have hk : (k == k') = false := by
    rw [beq_eq_false_iff_ne]
    exact fun hh => h hh.symm
  simp [assocGet, assocSet, List.find?_cons, hk, find?_filter_other k k' h]

def rateGet (st : RateStore) (k : RateKey) : Option RateEntry :=
  assocGet st k

def rateSet (st : RateStore) (k : RateKey) (v : RateEntry) : RateStore :=
  assocSet st k v

/-- Whether a Redis entry is still alive at time `now` (an entry with no
expiry set never dies; an expired key reads as absent). -/
def entryLiveAt (e : RateEntry) (now : Nat) : Bool :=
  match e.expiresAt with
  | none => true
  | some t => now < t

/-- Redis `INCR`: create the key at 1 (with no TTL) when absent or expired,
otherwise increment, returning the post-increment count. -/
def redisIncr (st : RateStore) (k : RateKey) (now : Nat) : Nat × RateStore :=
  match rateGet st k with
  | some e =>
    if entryLiveAt e now then (e.count + 1, rateSet st k ⟨e.count + 1, e.expiresAt⟩)
    else (1, rateSet st k ⟨1, none⟩)
  | none => (1, rateSet st k ⟨1, none⟩)

/-- Redis `EXPIRE`, as an absolute deadline. -/
def redisExpireAt (st : RateStore) (k : RateKey) (t : Nat) : RateStore :=
  match rateGet st k with
  | some e => rateSet st k ⟨e.count, some t⟩
  | none => st

/-- `Math.floor(now / 60000)`, the minute bucket of a millisecond timestamp. -/
def minuteBucket (now : Nat) : Nat := now / 60000

/-- The error thrown when a credential trips its per-minute limit. -/
def rateLimitExceededError : AppError :=
  ⟨"RATE_LIMIT_EXCEEDED", "Rate limit exceeded", 429⟩

/-- The `try` block of `enforceApiKeyRateLimit` (the shared-store path, from
the auth plugin in `static-compression.ts`): `INCR` the per-minute key, set a
60-second expiry on the first increment, and produce the 429 error when the
count exceeds the limit.  In the source this error is *thrown* inside the
`try` — see `enforceApiKeyRateLimit` below for what happens to it. -/
def enforceRedisRateLimit (st : RateStore) (now : Nat) (apiKeyId : Nat)
    (maxPerMinute : Int) : Option AppError × RateStore :=
  let key : RateKey := (apiKeyId, minuteBucket now)
  let r := redisIncr st key now
  let st2 := if r.1 = 1 then redisExpireAt r.2 key (now + 60000) else r.2
  if (r.1 : Int) > maxPerMinute then (some rateLimitExceededError, st2)
  else (none, st2)

/-- One entry of the module-level `localRateLimitStore` map:
`{ count, resetAt }`. -/
structure LocalEntry where
  count : Nat
  resetAt : Nat
deriving DecidableEq

/-- The local in-memory fallback store, keyed by `apiKeyId`. -/
abbrev LocalStore := List (Nat × LocalEntry)

/-- The local in-memory limiter at the bottom of `enforceApiKeyRateLimit`:
create a fresh entry (count 1, reset in 60 s) when absent or expired,
otherwise increment and throw 429 when the incremented count exceeds the
limit (the increment is written back even when the error is thrown). -/
def enforceLocalRateLimit (loc : LocalStore) (now : Nat) (apiKeyId : Nat)
    (maxPerMinute : Int) : Option AppError × LocalStore :=
  match assocGet loc apiKeyId with
  | none => (none, assocSet loc apiKeyId ⟨1, now + 60000⟩)
  | some ex =>
    if ex.resetAt ≤ now then (none, assocSet loc apiKeyId ⟨1, now + 60000⟩)
    else if ((ex.count + 1 : Nat) : Int) > maxPerMinute then
      (some rateLimitExceededError, assocSet loc apiKeyId ⟨ex.count + 1, ex.resetAt⟩)
    else (none, assocSet loc apiKeyId ⟨ex.count + 1, ex.resetAt⟩)

/-- `enforceApiKeyRateLimit` from the auth plugin (`static-compression.ts`
lines 191-231), with Redis available: skip entirely when the limit is
non-positive; otherwise run the shared-store limiter.  Crucially, the
`RATE_LIMIT_EXCEEDED` error thrown inside the `try` is swallowed by the bare
`catch` (written for Redis failures), so a shared-store rejection does NOT
propagate: control falls through to the local in-memory limiter, which can
grant further successes before throwing (outside any `try`) itself. -/
def enforceApiKeyRateLimit (st : RateStore) (loc : LocalStore) (now : Nat)
    (apiKeyId : Nat) (maxPerMinute : Int) : Option AppError × RateStore × LocalStore :=
  if maxPerMinute ≤ 0 then (none, st, loc)
  else
    match (enforceRedisRateLimit st now apiKeyId maxPerMinute).1 with
    | none => (none, (enforceRedisRateLimit st now apiKeyId maxPerMinute).2, loc)
    | some _ =>
      ((enforceLocalRateLimit loc now apiKeyId maxPerMinute).1,
        (enforceRedisRateLimit st now apiKeyId maxPerMinute).2,
        (enforceLocalRateLimit loc now apiKeyId maxPerMinute).2)

inductive ApiKeyStatus
  | ACTIVE
  | DISABLED
deriving DecidableEq

/-- The fields of an `ApiKey` row consulted by `authenticateApiKey`. -/
structure ApiKeyRec where
  id : Nat
  rateLimit : Int
  status : ApiKeyStatus
  expiresAt : Option Nat
deriving DecidableEq

/-- The `apiKey.expiresAt && apiKey.expiresAt < new Date()` check. -/
def apiKeyExpiredAt (cred : ApiKeyRec) (now : Nat) : Bool :=
  match cred.expiresAt with
  | some t => t < now
  | none => false

/-- `authenticateApiKey` from the auth plugin, for a request that presents the
key of the given credential at time `now`: lifecycle and expiry guards, then
the rate limit, threading both the shared and the local limiter stores.  (The
usage-count update and the attachment of the credential to the request
context carry no information for the claims and are elided.) -/
def authenticateApiKey (cred : ApiKeyRec) (st : RateStore) (loc : LocalStore)
    (now : Nat) : Option AppError × RateStore × LocalStore :=
  if cred.status ≠ ApiKeyStatus.ACTIVE then
    (some ⟨"API_KEY_DISABLED", "API Key is disabled", 403⟩, st, loc)
  else if apiKeyExpiredAt cred now then
    (some ⟨"API_KEY_EXPIRED", "API Key has expired", 403⟩, st, loc)
  else enforceApiKeyRateLimit st loc now cred.id cred.rateLimit

/-- A sequence of authentications of the same credential at the given times,
threading the shared and local limiter stores. -/
def authTrace (cred : ApiKeyRec) (st : RateStore) (loc : LocalStore) :
    List Nat → List (Option AppError) × RateStore × LocalStore
  | [] => ([], st, loc)
  | t :: ts =>
    let r := authenticateApiKey cred st loc t
    let rest := authTrace cred r.2.1 r.2.2 ts
    (r.1 :: rest.1, rest.2)

/-- The number of calls in the trace that landed in minute bucket `k` and
passed authentication. -/
def bucketSuccessCount (times : List Nat) (results : List (Option AppError)) (k : Nat) : Nat :=
  ((times.zip results).filter (fun p => decide (p.1 / 60000 = k) && (p.2 == none))).length

/-- Number of calls of `done` that landed in minute bucket `k`. -/
def bucketCallCount (done : List Nat) (k : Nat) : Nat :=
  (done.filter (fun t => decide (t / 60000 = k))).length

/-- Invariant tying the shared counter store to the call history of one
credential: each per-minute key holds exactly the number of calls made in that
minute, and its expiry is no earlier than the end of the minute. -/
def RateInv (id : Nat) (done : List Nat) (st : RateStore) : Prop :=
  ∀ k, (bucketCallCount done k = 0 → rateGet st (id, k) = none) ∧
    (0 < bucketCallCount done k →
      ∃ e, rateGet st (id, k) = some ⟨bucketCallCount done k, some e⟩ ∧
        60000 * k + 60000 ≤ e)

theorem bucketCallCount_append_one (done : List Nat) (t k : Nat) :
    bucketCallCount (done ++ [t]) k =
      bucketCallCount done k + (if t / 60000 = k then 1 else 0) := by
  simp only [bucketCallCount, List.filter_append, List.length_append, List.filter_cons,
    List.filter_nil]
  split <;> rename_i h
  · simp at h
    simp [h]
  · simp at h
    simp [h]

theorem bucketSuccessCount_cons (t : Nat) (ts : List Nat) (r : Option AppError)
    (rs : List (Option AppError)) (k : Nat) :
    bucketSuccessCount (t :: ts) (r :: rs) k =
      (if t / 60000 = k ∧ r = none then 1 else 0) + bucketSuccessCount ts rs k := by
  simp only [bucketSuccessCount, List.zip_cons_cons, List.filter_cons]
  by_cases h1 : t / 60000 = k
  · by_cases h2 : r = none
    · simp [h1, h2]
      omega
    · have : (r == none) = false := by
        rw [beq_eq_false_iff_ne]
        exact h2
      simp [h1, h2, this]
  · simp [h1]

/-- When every call of the history landed in bucket `k`, the bucket count is
the whole history. -/
theorem bucketCallCount_all (done : List Nat) (k : Nat)
    (h : ∀ t ∈ done, t / 60000 = k) : bucketCallCount done k = done.length := by
  unfold bucketCallCount
  congr 1
  apply List.filter_eq_self.mpr
  intro a ha
  simp [h a ha]

theorem enforce_eval_fresh (st : RateStore) (t id : Nat) (max : Int)
    (h0 : rateGet st (id, t / 60000) = none) :
    enforceRedisRateLimit st t id max =
      (if ((1 : Nat) : Int) > max then some rateLimitExceededError else none,
        rateSet (rateSet st (id, t / 60000) ⟨1, none⟩) (id, t / 60000)
        ⟨1, some (t + 60000)⟩) := by
  have hincr : redisIncr st (id, t / 60000) t = (1, rateSet st (id, t / 60000) ⟨1, none⟩) := by
    unfold redisIncr
    rw [h0]
  have hexp : redisExpireAt (rateSet st (id, t / 60000) ⟨1, none⟩) (id, t / 60000) (t + 60000) =
      rateSet (rateSet st (id, t / 60000) ⟨1, none⟩) (id, t / 60000) ⟨1, some (t + 60000)⟩ := by
    unfold redisExpireAt
    rw [show rateGet (rateSet st (id, t / 60000) ⟨1, none⟩) (id, t / 60000) =
      some ⟨1, none⟩ from assocGet_assocSet_self st _ _]
  simp only [enforceRedisRateLimit, minuteBucket, hincr, if_pos rfl, hexp]
  split <;> rfl

theorem enforce_eval_existing (st : RateStore) (t id : Nat) (max : Int) (m e : Nat)
    (h0 : rateGet st (id, t / 60000) = some ⟨m, some e⟩) (hm : 1 ≤ m) (hlive : t < e) :
    enforceRedisRateLimit st t id max =
      (if ((m + 1 : Nat) : Int) > max then some rateLimitExceededError else none,
        rateSet st (id, t / 60000) ⟨m + 1, some e⟩) := by
  have hlivetrue : entryLiveAt ⟨m, some e⟩ t = true := by
    simp [entryLiveAt, hlive]
  have hincr : redisIncr st (id, t / 60000) t = (m + 1, rateSet st (id, t / 60000) ⟨m + 1, some e⟩) := by
    simp only [redisIncr, h0, hlivetrue, if_true]
  have hne : ¬(m + 1 = 1) := by omega
  simp only [enforceRedisRateLimit, minuteBucket, hincr, if_neg hne]
  split <;> rfl

theorem rateInv_step (id : Nat) (max : Int) (done : List Nat)
    (st : RateStore) (hinv : RateInv id done st) (t : Nat) :
    RateInv id (done ++ [t]) (enforceRedisRateLimit st t id max).2 ∧
    ((enforceRedisRateLimit st t id max).1 = none ↔
      ((bucketCallCount done (t / 60000) + 1 : Nat) : Int) ≤ max) ∧
    (∀ e, (enforceRedisRateLimit st t id max).1 = some e → e = rateLimitExceededError) := by
  set k0 := t / 60000 with hk0
  set m := bucketCallCount done k0 with hmdef
  have htlow : 60000 * k0 ≤ t := by
    rw [hk0, Nat.mul_comm]
    exact Nat.div_mul_le_self t 60000
  have hthigh : t < 60000 * k0 + 60000 := by
    have h2 : t / 60000 < k0 + 1 := by omega
    have := (Nat.div_lt_iff_lt_mul (by omega : 0 < 60000)).mp h2
    omega
  rcases Nat.eq_zero_or_pos m with hm0 | hmpos
  · -- first call in this bucket
    have h0 : rateGet st (id, k0) = none := (hinv k0).1 hm0
    have heval := enforce_eval_fresh st t id max h0
    refine ⟨?_, ?_, ?_⟩
    · intro k
      rw [heval]
      by_cases hk : k = k0
      · subst hk
        constructor
        · intro hz
          rw [bucketCallCount_append_one] at hz
          simp [hk0] at hz
        · intro _
          refine ⟨t + 60000, ?_, by omega⟩
          rw [show rateGet (rateSet (rateSet st (id, k0) ⟨1, none⟩) (id, k0)
              ⟨1, some (t + 60000)⟩) (id, k0) = some ⟨1, some (t + 60000)⟩ from
            assocGet_assocSet_self _ _ _]
          rw [bucketCallCount_append_one, ← hmdef, hm0]
          simp [hk0]
      · have hne : (id, k) ≠ (id, k0) := by
          intro hh
          exact hk (congrArg Prod.snd hh)
        have hcc : bucketCallCount (done ++ [t]) k = bucketCallCount done k := by
          rw [bucketCallCount_append_one]
          simp [hk0]
          intro hc
          exact hk (by rw [hk0, ← hc])
        rw [show rateGet (rateSet (rateSet st (id, k0) ⟨1, none⟩) (id, k0)
            ⟨1, some (t + 60000)⟩) (id, k) = rateGet st (id, k) by
          unfold rateGet rateSet
          rw [assocGet_assocSet_ne _ _ _ _ hne, assocGet_assocSet_ne _ _ _ _ hne]]
        rw [hcc]
        exact hinv k
    · rw [heval]
      simp only [← hmdef, hm0]
      by_cases hgt : ((1 : Nat) : Int) > max
      · rw [if_pos hgt]
        constructor
        · intro hh
          exact absurd hh (by simp)
        · intro hh
          omega
      · rw [if_neg hgt]
        constructor
        · intro _
          omega
        · intro _
          trivial
    · intro e he
      rw [heval] at he
      by_cases hgt : ((1 : Nat) : Int) > max
      · rw [if_pos hgt] at he
        exact (Option.some_inj.mp he).symm
      · rw [if_neg hgt] at he
        exact absurd he (by simp)
  · -- subsequent call in this bucket
    obtain ⟨e, hget, hexp⟩ := (hinv k0).2 hmpos
    have heval := enforce_eval_existing st t id max m e hget hmpos (by omega)
    refine ⟨?_, ?_, ?_⟩
    · intro k
      rw [heval]
      by_cases hk : k = k0
      · subst hk
        constructor
        · intro hz
          rw [bucketCallCount_append_one] at hz
          simp [hk0] at hz
        · intro _
          refine ⟨e, ?_, hexp⟩
          rw [show rateGet (rateSet st (id, k0) ⟨m + 1, some e⟩) (id, k0) =
            some ⟨m + 1, some e⟩ from assocGet_assocSet_self _ _ _]
          rw [bucketCallCount_append_one, ← hmdef]
          simp [hk0]
      · have hne : (id, k) ≠ (id, k0) := by
          intro hh
          exact hk (congrArg Prod.snd hh)
        have hcc : bucketCallCount (done ++ [t]) k = bucketCallCount done k := by
          rw [bucketCallCount_append_one]
          simp [hk0]
          intro hc
          exact hk (by rw [hk0, ← hc])
        rw [show rateGet (rateSet st (id, k0) ⟨m + 1, some e⟩) (id, k) = rateGet st (id, k) by
          unfold rateGet rateSet
          rw [assocGet_assocSet_ne _ _ _ _ hne]]
        rw [hcc]
        exact hinv k
    · rw [heval]
      by_cases hgt : ((m + 1 : Nat) : Int) > max
      · rw [if_pos hgt]
        simp only [← hmdef]
        constructor
        · intro hh
          exact absurd hh (by simp)
        · intro hh
          omega
      · rw [if_neg hgt]
        simp only [← hmdef]
        constructor
        · intro _
          omega
        · intro _
          trivial
    · intro e' he'
      rw [heval] at he'
      by_cases hgt : ((m + 1 : Nat) : Int) > max
      · rw [if_pos hgt] at he'
        exact (Option.some_inj.mp he').symm
      · rw [if_neg hgt] at he'
        exact absurd he' (by simp)

theorem rateInv_empty (id : Nat) : RateInv id [] [] := by
  intro k
  constructor
  · intro _
    rfl
  · intro h
    simp [bucketCallCount] at h

theorem enforceLocal_eval_fresh (loc : LocalStore) (t id : Nat) (max : Int)
    (h0 : assocGet loc id = none) :
    enforceLocalRateLimit loc t id max = (none, assocSet loc id ⟨1, t + 60000⟩) := by
  unfold enforceLocalRateLimit
  rw [h0]

theorem enforceLocal_eval_live (loc : LocalStore) (t id : Nat) (max : Int) (m rA : Nat)
    (h0 : assocGet loc id = some ⟨m, rA⟩) (hlive : ¬rA ≤ t) :
    enforceLocalRateLimit loc t id max =
      (if ((m + 1 : Nat) : Int) > max then some rateLimitExceededError else none,
        assocSet loc id ⟨m + 1, rA⟩) := by
  unfold enforceLocalRateLimit
  rw [h0]
  simp only [if_neg hlive]
  split <;> rfl

/-- Invariant tying the local fallback store to the call history of one
credential, when every call so far landed in bucket `k` and Redis is live:
the first `maxN` calls are absorbed by the shared counter and leave the local
store untouched; each later call falls through the swallowed throw and lands
in the local counter, whose reset time lies at or beyond the end of the
bucket. -/
def LocalInv (id k maxN : Nat) (done : List Nat) (loc : LocalStore) : Prop :=
  (done.length ≤ maxN → assocGet loc id = none) ∧
  (maxN < done.length → ∃ rA, assocGet loc id = some ⟨done.length - maxN, rA⟩ ∧
    60000 * k + 60000 ≤ rA)

theorem localInv_empty (id k maxN : Nat) : LocalInv id k maxN [] [] := by
  refine ⟨fun _ => rfl, fun h => absurd h (by simp)⟩

/-- Unfolding of the limiter for a positive limit: the shared-store error is
swallowed and replaced by whatever the local fallback produces. -/
theorem enforceApiKey_eval (st : RateStore) (loc : LocalStore) (t id : Nat)
    (max : Int) (hmax : ¬max ≤ 0) :
    enforceApiKeyRateLimit st loc t id max =
      match (enforceRedisRateLimit st t id max).1 with
      | none => (none, (enforceRedisRateLimit st t id max).2, loc)
      | some _ =>
        ((enforceLocalRateLimit loc t id max).1,
          (enforceRedisRateLimit st t id max).2,
          (enforceLocalRateLimit loc t id max).2) := by
  unfold enforceApiKeyRateLimit
  rw [if_neg hmax]

/-- One limiter step under both invariants, all calls in bucket `k`: the call
succeeds exactly when it is among the first `2 * maxN` of the bucket (the
shared counter grants the first `maxN`, the local fallback the next `maxN`),
it fails with `RATE_LIMIT_EXCEEDED` otherwise, and both invariants are
preserved. -/
theorem enforce_step (st : RateStore) (loc : LocalStore) (id k maxN t : Nat)
    (hmaxN : 1 ≤ maxN) (done : List Nat) (hdone : ∀ u ∈ done, u / 60000 = k)
    (ht : t / 60000 = k) (hrinv : RateInv id done st)
    (hlinv : LocalInv id k maxN done loc) :
    ((enforceApiKeyRateLimit st loc t id (maxN : Int)).1 =
      if done.length + 1 ≤ 2 * maxN then none else some rateLimitExceededError) ∧
    RateInv id (done ++ [t]) (enforceApiKeyRateLimit st loc t id (maxN : Int)).2.1 ∧
    LocalInv id k maxN (done ++ [t]) (enforceApiKeyRateLimit st loc t id (maxN : Int)).2.2 := by
  have hmax : ¬((maxN : Int) ≤ 0) := by omega
  have hbc : bucketCallCount done k = done.length := bucketCallCount_all done k hdone
  obtain ⟨hrinv', hriff, hrerr⟩ := rateInv_step id (maxN : Int) done st hrinv t
  rw [ht, hbc] at hriff
  have hlen : (done ++ [t]).length = done.length + 1 := by simp
  have htge : 60000 * k ≤ t := by
    have hd := Nat.div_mul_le_self t 60000
    rw [ht] at hd
    omega
  have htlt : t < 60000 * k + 60000 := by
    have h2 : t / 60000 < k + 1 := by omega
    have h3 := (Nat.div_lt_iff_lt_mul (by omega : 0 < 60000)).mp h2
    omega
  rw [enforceApiKey_eval st loc t id (maxN : Int) hmax]
  by_cases hsucc : done.length + 1 ≤ maxN
  · -- absorbed by the shared counter
    have hq : (enforceRedisRateLimit st t id (maxN : Int)).1 = none := hriff.mpr (by omega)
    simp only [hq]
    refine ⟨by rw [if_pos (by omega)], hrinv', ?_, ?_⟩
    · intro _
      exact hlinv.1 (by omega)
    · intro hgt
      rw [hlen] at hgt
      exact absurd hgt (by omega)
  · -- the shared counter rejects; the throw is swallowed, local path runs
    have hq : (enforceRedisRateLimit st t id (maxN : Int)).1 = some rateLimitExceededError := by
      cases hq2 : (enforceRedisRateLimit st t id (maxN : Int)).1 with
      | none => exact absurd (hriff.mp hq2) (by omega)
      | some e2 => rw [hrerr e2 hq2]
    simp only [hq]
    by_cases hfresh : done.length ≤ maxN
    · -- first local call of the bucket
      have h0 : assocGet loc id = none := hlinv.1 hfresh
      have hleval := enforceLocal_eval_fresh loc t id (maxN : Int) h0
      simp only [hleval]
      refine ⟨by rw [if_pos (by omega)], hrinv', ?_, ?_⟩
      · intro hle
        rw [hlen] at hle
        exact absurd hle (by omega)
      · intro _
        refine ⟨t + 60000, ?_, by omega⟩
        rw [hlen, show done.length + 1 - maxN = 1 from by omega]
        exact assocGet_assocSet_self _ _ _
    · -- live local entry
      obtain ⟨rA, hget, hrA⟩ := hlinv.2 (by omega)
      have hlive : ¬rA ≤ t := by omega
      have hleval := enforceLocal_eval_live loc t id (maxN : Int) (done.length - maxN) rA
        hget hlive
      simp only [hleval]
      refine ⟨?_, hrinv', ?_, ?_⟩
      · by_cases hcmp : done.length + 1 ≤ 2 * maxN
        · have hc2 : ¬(((done.length - maxN + 1 : Nat) : Int) > (maxN : Int)) := by
            omega
          rw [if_neg hc2, if_pos hcmp]
        · have hc2 : ((done.length - maxN + 1 : Nat) : Int) > (maxN : Int) := by
            omega
          rw [if_pos hc2, if_neg hcmp]
      · intro hle
        rw [hlen] at hle
        exact absurd hle (by omega)
      · intro _
        refine ⟨rA, ?_, hrA⟩
        rw [hlen, show done.length + 1 - maxN = done.length - maxN + 1 from by omega]
        exact assocGet_assocSet_self _ _ _

theorem authTrace_single_bucket_aux (cred : ApiKeyRec) (maxN k : Nat)
    (hact : cred.status = ApiKeyStatus.ACTIVE) (hrl : cred.rateLimit = (maxN : Int))
    (hmaxN : 1 ≤ maxN) :
    ∀ (times : List Nat), (∀ t ∈ times, apiKeyExpiredAt cred t = false) →
    (∀ t ∈ times, t / 60000 = k) →
    ∀ (done : List Nat) (st : RateStore) (loc : LocalStore),
    (∀ t ∈ done, t / 60000 = k) → RateInv cred.id done st →
    LocalInv cred.id k maxN done loc →
    bucketSuccessCount times (authTrace cred st loc times).1 k +
        min done.length (2 * maxN) ≤ 2 * maxN ∧
    (∀ r ∈ (authTrace cred st loc times).1, ∀ e, r = some e →
      e = rateLimitExceededError) := by
  intro times
  induction times with
  | nil =>
    intro _ _ done st loc _ _ _
    constructor
    · simp only [authTrace, bucketSuccessCount, List.zip_nil_left, List.filter_nil,
        List.length_nil, Nat.zero_add]
      omega
    · intro r hr
      simp [authTrace] at hr
  | cons t ts ih =>
    intro hexp hbk done st loc hdone hrinv hlinv
    have hactstep : authenticateApiKey cred st loc t =
        enforceApiKeyRateLimit st loc t cred.id cred.rateLimit := by
      unfold authenticateApiKey
      rw [if_neg (by simp [hact]), if_neg (by simp [hexp t (List.mem_cons_self t ts)])]
    rw [hrl] at hactstep
    obtain ⟨hres, hrinv', hlinv'⟩ := enforce_step st loc cred.id k maxN t hmaxN done hdone
      (hbk t (List.mem_cons_self t ts)) hrinv hlinv
    have htr : authTrace cred st loc (t :: ts) =
        ((enforceApiKeyRateLimit st loc t cred.id (maxN : Int)).1 ::
          (authTrace cred (enforceApiKeyRateLimit st loc t cred.id (maxN : Int)).2.1
            (enforceApiKeyRateLimit st loc t cred.id (maxN : Int)).2.2 ts).1,
          (authTrace cred (enforceApiKeyRateLimit st loc t cred.id (maxN : Int)).2.1
            (enforceApiKeyRateLimit st loc t cred.id (maxN : Int)).2.2 ts).2) := by
      simp only [authTrace, hactstep]
    have hdone2 : ∀ u ∈ done ++ [t], u / 60000 = k := by
      intro u hu
      rcases List.mem_append.mp hu with h | h
      · exact hdone u h
      · rw [List.mem_singleton.mp h]
        exact hbk t (List.mem_cons_self t ts)
    have ihres := ih (fun u hu => hexp u (List.mem_cons_of_mem _ hu))
      (fun u hu => hbk u (List.mem_cons_of_mem _ hu)) (done ++ [t])
      (enforceApiKeyRateLimit st loc t cred.id (maxN : Int)).2.1
      (enforceApiKeyRateLimit st loc t cred.id (maxN : Int)).2.2 hdone2 hrinv' hlinv'
    rw [htr]
    have hlen2 : (done ++ [t]).length = done.length + 1 := by simp
    constructor
    · rw [bucketSuccessCount_cons]
      by_cases hcase : done.length + 1 ≤ 2 * maxN
      · have h1 : (enforceApiKeyRateLimit st loc t cred.id (maxN : Int)).1 = none := by
          rw [hres, if_pos hcase]
        rw [if_pos ⟨hbk t (List.mem_cons_self t ts), h1⟩]
        have hb := ihres.1
        rw [hlen2] at hb
        omega
      · have h1 : (enforceApiKeyRateLimit st loc t cred.id (maxN : Int)).1 =
            some rateLimitExceededError := by
          rw [hres, if_neg hcase]
        have h2 : ¬(t / 60000 = k ∧
            (enforceApiKeyRateLimit st loc t cred.id (maxN : Int)).1 = none) := by
          intro hh
          rw [h1] at hh
          exact absurd hh.2 (by simp)
        rw [if_neg h2]
        have hb := ihres.1
        rw [hlen2] at hb
        omega
    · intro r hr e hre
      rcases List.mem_cons.mp hr with heq | hmem
      · rw [heq, hres] at hre
        by_cases hcase : done.length + 1 ≤ 2 * maxN
        · rw [if_pos hcase] at hre
          exact absurd hre (by simp)
        · rw [if_neg hcase] at hre
          exact (Option.some_inj.mp hre).symm
      · exact ihres.2 r hmem e hre

/-- Claim C4 (amended): the limiter does NOT bound successes of one credential
by `rate_per_minute`, neither per 60-second window nor per aligned minute
bucket — the `RATE_LIMIT_EXCEEDED` thrown on the shared-store path is
swallowed by the bare `catch` and control falls through to the local
in-memory limiter, which grants up to `rate_per_minute` further successes
(see the counterexample).  What the program does enforce: starting from empty
shared and local stores, over any calls of one active unexpired credential
that all lie in a single aligned minute bucket, at most `2 * rate_per_minute`
authentications succeed, and every authentication the limiter rejects fails
with `RATE_LIMIT_EXCEEDED` and HTTP status 429. -/
theorem authenticateApiKey_single_bucket_bound
    (cred : ApiKeyRec) (maxN : Nat) (times : List Nat) (k : Nat)
    (hact : cred.status = ApiKeyStatus.ACTIVE)
    (hrl : cred.rateLimit = (maxN : Int)) (hmaxN : 1 ≤ maxN)
    (hexp : ∀ t ∈ times, apiKeyExpiredAt cred t = false)
    (hbk : ∀ t ∈ times, t / 60000 = k) :
    bucketSuccessCount times (authTrace cred [] [] times).1 k ≤ 2 * maxN ∧
    (∀ r ∈ (authTrace cred [] [] times).1, ∀ e, r = some e →
      e = rateLimitExceededError ∧ e.statusCode = 429) := by
  have h := authTrace_single_bucket_aux cred maxN k hact hrl hmaxN times hexp hbk [] [] []
    (by intro t ht; exact absurd ht (List.not_mem_nil t)) (rateInv_empty cred.id)
    (localInv_empty cred.id k maxN)
  constructor
  · have hb := h.1
    omega
  · intro r hr e hre
    refine ⟨h.2 r hr e hre, ?_⟩
    rw [h.2 r hr e hre]
    rfl

/-- Witness for C4 (amended) at a concrete credential and trace. -/
theorem authenticateApiKey_single_bucket_bound_witness :
    bucketSuccessCount [0, 1, 2]
      (authTrace ⟨1, 2, ApiKeyStatus.ACTIVE, none⟩ [] [] [0, 1, 2]).1 0 ≤ 4 :=
  (authenticateApiKey_single_bucket_bound ⟨1, 2, ApiKeyStatus.ACTIVE, none⟩ 2 [0, 1, 2] 0
    rfl rfl (by decide) (by decide) (by decide)).1

/-- Counterexample to C4 as stated: with `rate_per_minute = 1`, three calls
2 ms apart — inside one 60-second window and one aligned minute bucket — give
TWO successes before the third fails: the shared-store 429 of the second call
is swallowed by the bare `catch` and the local fallback grants it.  So the
count of successful authentications in a 60-second window exceeds
`rate_per_minute`. -/
theorem rate_limit_fallback_counterexample :
    (authTrace ⟨7, 1, ApiKeyStatus.ACTIVE, none⟩ [] [] [0, 1, 2]).1 =
      [none, none, some rateLimitExceededError] ∧
    bucketSuccessCount [0, 1, 2]
      (authTrace ⟨7, 1, ApiKeyStatus.ACTIVE, none⟩ [] [] [0, 1, 2]).1 0 = 2 ∧
    1 < 2 := by
  refine ⟨by decide, by decide, by decide⟩

/-- Claim C10: a credential whose stored `rateLimit` is zero or negative is
never rate limited: the limiter returns immediately with both stores
unchanged — before the shared-store path and before the local fallback — and
no authentication in any trace fails with `RATE_LIMIT_EXCEEDED`. -/
theorem nonpositive_rate_limit_never_throttles
    (cred : ApiKeyRec) (hrl : cred.rateLimit ≤ 0) :
    (∀ st loc now, enforceApiKeyRateLimit st loc now cred.id cred.rateLimit = (none, st, loc)) ∧
    (∀ st loc times, ∀ r ∈ (authTrace cred st loc times).1, ∀ e, r = some e →
      e.code ≠ "RATE_LIMIT_EXCEEDED") := by
  have hhead : ∀ st loc now, (authenticateApiKey cred st loc now).1 = none ∨
      (∃ e, (authenticateApiKey cred st loc now).1 = some e ∧
        e.code ≠ "RATE_LIMIT_EXCEEDED") := by
    intro st loc now
    unfold authenticateApiKey
    by_cases h1 : cred.status ≠ ApiKeyStatus.ACTIVE
    · rw [if_pos h1]
      exact Or.inr ⟨_, rfl, by decide⟩
    · rw [if_neg h1]
      by_cases h2 : apiKeyExpiredAt cred now
      · rw [if_pos h2]
        exact Or.inr ⟨_, rfl, by decide⟩
      · rw [if_neg h2]
        left
        unfold enforceApiKeyRateLimit
        rw [if_pos hrl]
  constructor
  · intro st loc now
    unfold enforceApiKeyRateLimit
    rw [if_pos hrl]
  · intro st loc times
    induction times generalizing st loc with
    | nil =>
      intro r hr
      simp [authTrace] at hr
    | cons t ts ih =>
      intro r hr e hre
      have htr : (authTrace cred st loc (t :: ts)).1 =
          (authenticateApiKey cred st loc t).1 ::
            (authTrace cred (authenticateApiKey cred st loc t).2.1
              (authenticateApiKey cred st loc t).2.2 ts).1 := rfl
      rw [htr] at hr
      rcases List.mem_cons.mp hr with heq | hmem
      · rcases hhead st loc t with hn | ⟨e', he', hcode⟩
        · rw [heq, hn] at hre
          exact absurd hre (by simp)
        · rw [heq, he'] at hre
          rw [Option.some_inj.mp hre] at hcode
          exact hcode
      · exact ih _ _ r hmem e hre

/-- Witness for C10 at a concrete credential with `rateLimit = 0`. -/
theorem nonpositive_rate_limit_never_throttles_witness :
    enforceApiKeyRateLimit [] [] 5 (ApiKeyRec.mk 3 0 ApiKeyStatus.ACTIVE none).id
      (ApiKeyRec.mk 3 0 ApiKeyStatus.ACTIVE none).rateLimit = (none, [], []) :=
  (nonpositive_rate_limit_never_throttles ⟨3, 0, ApiKeyStatus.ACTIVE, none⟩
    (by decide)).1 [] [] 5

inductive EmailStatus
  | ACTIVE
  | ERROR
  | DISABLED
deriving DecidableEq

inductive FetchStrategy
  | GRAPH_FIRST
  | IMAP_FIRST
  | GRAPH_ONLY
  | IMAP_ONLY
deriving DecidableEq

/-- An `EmailAccount` row, with the joined group's `fetchStrategy` inlined
(`none` when the mailbox has no group). -/
structure EmailAccount where
  id : Nat
  email : String
  clientId : String
  refreshToken : String
  status : EmailStatus
  groupId : Option Nat
  groupFetchStrategy : Option FetchStrategy
deriving DecidableEq

/-- The resolved scope of an API key (`ApiKeyScope` in `pool.service`):
`none` encodes an absent/empty allow-list. -/
structure ApiKeyScope where
  allowedGroupIds : Option (List Nat)
  allowedEmailIds : Option (List Nat)
deriving DecidableEq

/-- `parseJsonIdList`: keep the positive integers of a JSON array (a non-array
value yields the empty list), without duplicates. -/
def parseJsonIdList (value : Option (List Int)) : List Nat :=
  match value with
  | none => []
  | some l => (l.filterMap (fun i => if 0 < i then some i.toNat else none)).dedup

/-- `getApiKeyScope`: an empty parsed list becomes an absent allow-list. -/
def getApiKeyScope (allowedGroupIdsRaw allowedEmailIdsRaw : Option (List Int)) : ApiKeyScope :=
  ⟨if (parseJsonIdList allowedGroupIdsRaw).length > 0 then some (parseJsonIdList allowedGroupIdsRaw) else none,
   if (parseJsonIdList allowedEmailIdsRaw).length > 0 then some (parseJsonIdList allowedEmailIdsRaw) else none⟩

/-- The `EmailUsage` table (`PoolAssignment`): rows keyed by the primary key
`(apiKeyId, emailAccountId)`. -/
abbrev UsageTable := List (Nat × Nat)

/-- The Prisma `where` object built by `getUnusedEmail` and
`applyScopeToEmailWhere`, as the record of its possible constraints. -/
structure EmailWhere where
  statusActive : Bool
  notUsedByKey : Option Nat
  groupIdEq : Option Nat
  groupIdIn : Option (List Nat)
  idIn : Option (List Nat)
deriving DecidableEq

def groupForbiddenError : AppError :=
  ⟨"GROUP_FORBIDDEN", "This API Key cannot access the selected group", 403⟩

def alreadyUsedError : AppError :=
  ⟨"ALREADY_USED", "Email already allocated to this API Key", 409⟩

def concurrencyLimitError : AppError :=
  ⟨"CONCURRENCY_LIMIT", "System busy, please try again", 429⟩

def noUnusedEmailError : AppError :=
  ⟨"NO_UNUSED_EMAIL", "No unused emails available", 400⟩

/-- The group half of `applyScopeToEmailWhere` (`src/unnamed/part_011` lines
82-89): an explicitly requested group must lie in the group allow-list (else
`GROUP_FORBIDDEN`, 403) and pins `groupId`; otherwise a group allow-list
becomes a `groupId IN` constraint. -/
def applyGroupScope (w : EmailWhere) (scope : ApiKeyScope) (groupId : Option Nat) :
    Except AppError EmailWhere :=
  match groupId with
  | some g =>
    match scope.allowedGroupIds with
    | some l =>
      if g ∈ l then .ok { w with groupIdEq := some g }
      else .error groupForbiddenError
    | none => .ok { w with groupIdEq := some g }
  | none =>
    match scope.allowedGroupIds with
    | some l => .ok { w with groupIdIn := some l }
    | none => .ok w

/-- `applyScopeToEmailWhere` from `src/unnamed/part_011` lines 77-96: the
group constraint above, then an email allow-list becomes an `id IN`
constraint. -/
def applyScopeToEmailWhere (w : EmailWhere) (scope : ApiKeyScope) (groupId : Option Nat) :
    Except AppError EmailWhere :=
  match applyGroupScope w scope groupId with
  | .error e => .error e
  | .ok w1 =>
    .ok (match scope.allowedEmailIds with
         | some l => { w1 with idIn := some l }
         | none => w1)

/-- Evaluation of the `where` object on a row, with Prisma semantics: an
equality or `IN` constraint on the nullable `groupId` matches only non-null
values. -/
def emailWhereMatches (w : EmailWhere) (db : UsageTable) (a : EmailAccount) : Bool :=
  (!w.statusActive || a.status == EmailStatus.ACTIVE) &&
  (match w.notUsedByKey with
   | some k => !(decide ((k, a.id) ∈ db))
   | none => true) &&
  (match w.groupIdEq with
   | some g => a.groupId == some g
   | none => true) &&
  (match w.groupIdIn with
   | some l =>
     match a.groupId with
     | some g => decide (g ∈ l)
     | none => false
   | none => true) &&
  (match w.idIn with
   | some l => decide (a.id ∈ l)
   | none => true)

/-- Insertion into an id-ascending list (`orderBy: { id: 'asc' }`). -/
def insertById (a : EmailAccount) : List EmailAccount → List EmailAccount
  | [] => [a]
  | b :: t => if a.id ≤ b.id then a :: b :: t else b :: insertById a t

/-- The rows of the `EmailAccount` table in ascending-id order. -/
def sortById : List EmailAccount → List EmailAccount
  | [] => []
  | a :: t => insertById a (sortById t)

/-- The value returned by `poolService.getUnusedEmail`: the selected columns,
with the refresh token decrypted and the group's fetch strategy defaulted to
`GRAPH_FIRST`. -/
structure AllocatedEmail where
  id : Nat
  email : String
  clientId : String
  refreshToken : String
  groupId : Option Nat
  fetchStrategy : FetchStrategy
deriving DecidableEq

/-- `poolService.getUnusedEmail` from `src/unnamed/part_011` lines 113-152:
build the scoped `where` (status ACTIVE, not used by this key), take the
lowest-id matching row, decrypt its refresh token (`dec` stands for the
decryption of C1's secret box). -/
def getUnusedEmail (dec : String → String) (pool : List EmailAccount) (db : UsageTable)
    (apiKeyId : Nat) (scope : ApiKeyScope) (groupId : Option Nat) :
    Except AppError (Option AllocatedEmail) := do
  let w ← applyScopeToEmailWhere ⟨true, some apiKeyId, none, none, none⟩ scope groupId
  match (sortById pool).find? (emailWhereMatches w db) with
  | none => pure none
  | some a => pure (some ⟨a.id, a.email, a.clientId, dec a.refreshToken, a.groupId,
      a.groupFetchStrategy.getD FetchStrategy.GRAPH_FIRST⟩)

/-- `poolService.markUsed`: insert the `(apiKeyId, emailAccountId)` row; a
primary-key conflict (Prisma error P2002) is surfaced as `ALREADY_USED`
with status 409. -/
def markUsed (db : UsageTable) (apiKeyId emailAccountId : Nat) : Except AppError UsageTable :=
  if (apiKeyId, emailAccountId) ∈ db then .error alreadyUsedError
  else .ok ((apiKeyId, emailAccountId) :: db)

/-- A sequence of `markUsed` calls against the evolving table, recording which
succeeded. -/
def runMarkUsed (db : UsageTable) : List (Nat × Nat) → List Bool × UsageTable
  | [] => ([], db)
  | (k, e) :: ops =>
    match markUsed db k e with
    | .ok db1 =>
      let rest := runMarkUsed db1 ops
      (true :: rest.1, rest.2)
    | .error _ =>
      let rest := runMarkUsed db ops
      (false :: rest.1, rest.2)

/-- How many calls of the sequence targeted pair `p` and succeeded. -/
def successCountFor (ops : List (Nat × Nat)) (flags : List Bool) (p : Nat × Nat) : Nat :=
  ((ops.zip flags).filter (fun q => q.1 == p && q.2)).length

/-- The retry loop of the `/get-email` route (`src/unnamed/part_010` lines
74-110), with `fuel` attempts left and `i` the attempt index.  Concurrency is
modelled by the adversary `adv`: the rows other requests insert between this
attempt's `getUnusedEmail` read and its `markUsed` write.  The third component
counts the `markUsed` calls made. -/
def getEmailLoop (dec : String → String) (pool : List EmailAccount) (scope : ApiKeyScope)
    (apiKeyId : Nat) (groupId : Option Nat) (adv : Nat → UsageTable) :
    Nat → Nat → UsageTable → Except AppError (String × Nat) × UsageTable × Nat
  | 0, _, db => (.error concurrencyLimitError, db, 0)
  | fuel + 1, i, db =>
    match getUnusedEmail dec pool db apiKeyId scope groupId with
    | .error e => (.error e, db, 0)
    | .ok none => (.error noUnusedEmailError, db, 0)
    | .ok (some a) =>
      let db1 := adv i ++ db
      match markUsed db1 apiKeyId a.id with
      | .ok db2 => (.ok (a.email, a.id), db2, 1)
      | .error e =>
        if e.code = "ALREADY_USED" then
          let rest := getEmailLoop dec pool scope apiKeyId groupId adv fuel (i + 1) db1
          (rest.1, rest.2.1, rest.2.2 + 1)
        else (.error e, db1, 1)

/-- The `/get-email` handler's allocate-and-mark part: three attempts, then
`CONCURRENCY_LIMIT` (429). -/
def getEmailRoute (dec : String → String) (pool : List EmailAccount) (scope : ApiKeyScope)
    (apiKeyId : Nat) (groupId : Option Nat) (adv : Nat → UsageTable) (db : UsageTable) :
    Except AppError (String × Nat) × UsageTable × Nat :=
  getEmailLoop dec pool scope apiKeyId groupId adv 3 0 db

theorem successCountFor_cons (k e : Nat) (ops : List (Nat × Nat)) (b : Bool)
    (flags : List Bool) (p : Nat × Nat) :
    successCountFor ((k, e) :: ops) (b :: flags) p =
      (if (k, e) = p ∧ b = true then 1 else 0) + successCountFor ops flags p := by
  simp only [successCountFor, List.zip_cons_cons, List.filter_cons]
  by_cases h1 : (k, e) = p
  · by_cases h2 : b = true
    · have : (((k, e), b).1 == p && ((k, e), b).2) = true := by
        simp [h1, h2]
      simp [this, h1, h2]
      omega
    · have : (((k, e), b).1 == p && ((k, e), b).2) = false := by
        simp [h2]
      simp [this, h1, h2]
  · have : (((k, e), b).1 == p && ((k, e), b).2) = false := by
      simp [h1]
    simp [this, h1]

theorem markUsed_mem (db : UsageTable) (k e : Nat) (h : (k, e) ∈ db) :
    markUsed db k e = .error alreadyUsedError := by
  unfold markUsed
  rw [if_pos h]

theorem markUsed_not_mem (db : UsageTable) (k e : Nat) (h : (k, e) ∉ db) :
    markUsed db k e = .ok ((k, e) :: db) := by
  unfold markUsed
  rw [if_neg h]

theorem runMarkUsed_mem_zero (ops : List (Nat × Nat)) :
    ∀ (db : UsageTable) (p : Nat × Nat), p ∈ db →
      successCountFor ops (runMarkUsed db ops).1 p = 0 := by
  induction ops with
  | nil =>
    intro db p _
    rfl
  | cons q ops ih =>
    intro db p hp
    obtain ⟨k, e⟩ := q
    by_cases hmem : (k, e) ∈ db
    · have hrun : runMarkUsed db ((k, e) :: ops) =
          (false :: (runMarkUsed db ops).1, (runMarkUsed db ops).2) := by
        simp only [runMarkUsed, markUsed_mem db k e hmem]
      rw [hrun, successCountFor_cons]
      have hcond : ¬((k, e) = p ∧ false = true) := by
        intro hh
        exact absurd hh.2 (by decide)
      rw [if_neg hcond, Nat.zero_add]
      exact ih db p hp
    · have hrun : runMarkUsed db ((k, e) :: ops) =
          (true :: (runMarkUsed ((k, e) :: db) ops).1, (runMarkUsed ((k, e) :: db) ops).2) := by
        simp only [runMarkUsed, markUsed_not_mem db k e hmem]
      have hne : (k, e) ≠ p := fun hh => hmem (hh ▸ hp)
      rw [hrun, successCountFor_cons]
      have hcond : ¬((k, e) = p ∧ true = true) := by
        intro hh
        exact hne hh.1
      rw [if_neg hcond, Nat.zero_add]
      exact ih ((k, e) :: db) p (List.mem_cons_of_mem _ hp)

theorem runMarkUsed_at_most_once (ops : List (Nat × Nat)) :
    ∀ (db : UsageTable) (p : Nat × Nat), p ∉ db →
      successCountFor ops (runMarkUsed db ops).1 p ≤ 1 := by
  induction ops with
  | nil =>
    intro db p _
    exact Nat.zero_le 1
  | cons q ops ih =>
    intro db p hp
    obtain ⟨k, e⟩ := q
    by_cases hpq : (k, e) = p
    · have hmem : (k, e) ∉ db := hpq ▸ hp
      have hrun : runMarkUsed db ((k, e) :: ops) =
          (true :: (runMarkUsed ((k, e) :: db) ops).1, (runMarkUsed ((k, e) :: db) ops).2) := by
        simp only [runMarkUsed, markUsed_not_mem db k e hmem]
      rw [hrun, successCountFor_cons, if_pos ⟨hpq, rfl⟩]
      have hz := runMarkUsed_mem_zero ops ((k, e) :: db) p (hpq ▸ List.mem_cons_self (k, e) db)
      omega
    · by_cases hmem : (k, e) ∈ db
      · have hrun : runMarkUsed db ((k, e) :: ops) =
            (false :: (runMarkUsed db ops).1, (runMarkUsed db ops).2) := by
          simp only [runMarkUsed, markUsed_mem db k e hmem]
        rw [hrun, successCountFor_cons]
        have hcond : ¬((k, e) = p ∧ false = true) := by
          intro hh
          exact absurd hh.2 (by decide)
        rw [if_neg hcond, Nat.zero_add]
        exact ih db p hp
      · have hrun : runMarkUsed db ((k, e) :: ops) =
            (true :: (runMarkUsed ((k, e) :: db) ops).1, (runMarkUsed ((k, e) :: db) ops).2) := by
          simp only [runMarkUsed, markUsed_not_mem db k e hmem]
        rw [hrun, successCountFor_cons]
        have hcond : ¬((k, e) = p ∧ true = true) := by
          intro hh
          exact hpq hh.1
        rw [if_neg hcond, Nat.zero_add]
        refine ih ((k, e) :: db) p ?_
        intro hin
        rcases List.mem_cons.mp hin with heq | hin2
        · exact hpq heq.symm
        · exact hp hin2

theorem markUsed_error_is_already_used (db : UsageTable) (k e : Nat) (er : AppError)
    (h : markUsed db k e = .error er) : er = alreadyUsedError := by
  unfold markUsed at h
  by_cases hmem : (k, e) ∈ db
  · rw [if_pos hmem] at h
    exact (Except.error.inj h).symm
  · rw [if_neg hmem] at h
    exact absurd h (by simp)

theorem applyGroupScope_error (w : EmailWhere) (scope : ApiKeyScope)
    (groupId : Option Nat) (e : AppError)
    (h : applyGroupScope w scope groupId = .error e) : e = groupForbiddenError := by
  unfold applyGroupScope at h
  cases groupId with
  | some g =>
    cases hsg : scope.allowedGroupIds with
    | some l =>
      simp only [hsg] at h
      by_cases hmem : g ∈ l
      · rw [if_pos hmem] at h
        exact absurd h (by simp)
      · rw [if_neg hmem] at h
        exact (Except.error.inj h).symm
    | none =>
      simp only [hsg] at h
      exact absurd h (by simp)
  | none =>
    cases hsg : scope.allowedGroupIds with
    | some l =>
      simp only [hsg] at h
      exact absurd h (by simp)
    | none =>
      simp only [hsg] at h
      exact absurd h (by simp)

theorem applyScopeToEmailWhere_error (w : EmailWhere) (scope : ApiKeyScope)
    (groupId : Option Nat) (e : AppError)
    (h : applyScopeToEmailWhere w scope groupId = .error e) : e = groupForbiddenError := by
  unfold applyScopeToEmailWhere at h
  cases hg : applyGroupScope w scope groupId with
  | error e2 =>
    rw [hg] at h
    rw [applyGroupScope_error w scope groupId e2 hg] at h
    exact (Except.error.inj h).symm
  | ok w1 =>
    rw [hg] at h
    exact absurd h (by simp)

theorem getUnusedEmail_error (dec : String → String) (pool : List EmailAccount)
    (db : UsageTable) (apiKeyId : Nat) (scope : ApiKeyScope) (groupId : Option Nat)
    (e : AppError) (h : getUnusedEmail dec pool db apiKeyId scope groupId = .error e) :
    e = groupForbiddenError := by
  unfold getUnusedEmail at h
  cases happ : applyScopeToEmailWhere ⟨true, some apiKeyId, none, none, none⟩ scope groupId with
  | error e2 =>
    rw [happ] at h
    simp [bind, Except.bind] at h
    exact h ▸ applyScopeToEmailWhere_error _ _ _ _ happ
  | ok w =>
    rw [happ] at h
    simp only [bind, Except.bind] at h
    cases hf : (sortById pool).find? (emailWhereMatches w db) <;>
      simp [hf, pure, Except.pure] at h

theorem getEmailLoop_spec (dec : String → String) (pool : List EmailAccount)
    (scope : ApiKeyScope) (apiKeyId : Nat) (groupId : Option Nat) (adv : Nat → UsageTable) :
    ∀ (fuel i : Nat) (db : UsageTable),
      (getEmailLoop dec pool scope apiKeyId groupId adv fuel i db).2.2 ≤ fuel ∧
      ((getEmailLoop dec pool scope apiKeyId groupId adv fuel i db).1 =
          .error concurrencyLimitError →
        (getEmailLoop dec pool scope apiKeyId groupId adv fuel i db).2.2 = fuel) := by
  intro fuel
  induction fuel with
  | zero =>
    intro i db
    exact ⟨Nat.le_refl 0, fun _ => rfl⟩
  | succ fuel ih =>
    intro i db
    cases hg : getUnusedEmail dec pool db apiKeyId scope groupId with
    | error e =>
      have hloop : getEmailLoop dec pool scope apiKeyId groupId adv (fuel + 1) i db =
          (.error e, db, 0) := by
        simp only [getEmailLoop, hg]
      rw [hloop]
      refine ⟨by show (0 : Nat) ≤ fuel + 1; omega, ?_⟩
      intro hc
      have he := getUnusedEmail_error dec pool db apiKeyId scope groupId e hg
      rw [he] at hc
      exact absurd (Except.error.inj hc) (by decide)
    | ok oa =>
      cases oa with
      | none =>
        have hloop : getEmailLoop dec pool scope apiKeyId groupId adv (fuel + 1) i db =
            (.error noUnusedEmailError, db, 0) := by
          simp only [getEmailLoop, hg]
        rw [hloop]
        refine ⟨by show (0 : Nat) ≤ fuel + 1; omega, ?_⟩
        intro hc
        exact absurd (Except.error.inj hc) (by decide)
      | some a =>
        cases hm : markUsed (adv i ++ db) apiKeyId a.id with
        | ok db2 =>
          have hloop : getEmailLoop dec pool scope apiKeyId groupId adv (fuel + 1) i db =
              (.ok (a.email, a.id), db2, 1) := by
            simp only [getEmailLoop, hg, hm]
          rw [hloop]
          exact ⟨by show (1 : Nat) ≤ fuel + 1; omega, fun hc => absurd hc (by simp)⟩
        | error e =>
          have he := markUsed_error_is_already_used (adv i ++ db) apiKeyId a.id e hm
          have hcode : e.code = "ALREADY_USED" := by
            rw [he]
            rfl
          have hloop : getEmailLoop dec pool scope apiKeyId groupId adv (fuel + 1) i db =
              ((getEmailLoop dec pool scope apiKeyId groupId adv fuel (i + 1) (adv i ++ db)).1,
               (getEmailLoop dec pool scope apiKeyId groupId adv fuel (i + 1) (adv i ++ db)).2.1,
               (getEmailLoop dec pool scope apiKeyId groupId adv fuel (i + 1) (adv i ++ db)).2.2 + 1) := by
            simp only [getEmailLoop, hg, hm, if_pos hcode]
          rw [hloop]
          obtain ⟨h1, h2⟩ := ih (i + 1) (adv i ++ db)
          refine ⟨?_, ?_⟩
          · show (getEmailLoop dec pool scope apiKeyId groupId adv fuel (i + 1) (adv i ++ db)).2.2 + 1 ≤ fuel + 1
            omega
          · intro hc
            show (getEmailLoop dec pool scope apiKeyId groupId adv fuel (i + 1) (adv i ++ db)).2.2 + 1 = fuel + 1
            rw [h2 hc]

/-- Claim C1: `markUsed` succeeds at most once per `(credential, mailbox)`
pair over any interleaved call sequence — a second insert of a pair already in
the table raises `ALREADY_USED` with HTTP status 409 — and the `/get-email`
route performs at most 3 allocate-and-mark attempts, reaching
`CONCURRENCY_LIMIT` (HTTP 429) exactly when all 3 attempts lost the race. -/
theorem poolAllocation_exactly_once :
    (∀ (db : UsageTable) (ops : List (Nat × Nat)) (p : Nat × Nat), p ∉ db →
      successCountFor ops (runMarkUsed db ops).1 p ≤ 1) ∧
    (∀ (db : UsageTable) (k e : Nat), (k, e) ∈ db →
      markUsed db k e = .error alreadyUsedError ∧ alreadyUsedError.statusCode = 409) ∧
    (∀ (dec : String → String) (pool : List EmailAccount) (scope : ApiKeyScope)
      (apiKeyId : Nat) (groupId : Option Nat) (adv : Nat → UsageTable) (db : UsageTable),
      (getEmailRoute dec pool scope apiKeyId groupId adv db).2.2 ≤ 3 ∧
      ((getEmailRoute dec pool scope apiKeyId groupId adv db).1 =
          .error concurrencyLimitError →
        (getEmailRoute dec pool scope apiKeyId groupId adv db).2.2 = 3) ∧
      concurrencyLimitError.statusCode = 429) := by
  refine ⟨?_, ?_, ?_⟩
  · intro db ops p hp
    exact runMarkUsed_at_most_once ops db p hp
  · intro db k e hmem
    exact ⟨markUsed_mem db k e hmem, rfl⟩
  · intro dec pool scope apiKeyId groupId adv db
    obtain ⟨h1, h2⟩ := getEmailLoop_spec dec pool scope apiKeyId groupId adv 3 0 db
    exact ⟨h1, h2, rfl⟩

/-- Witness for C1: a duplicate pair in a concrete call sequence succeeds only
once. -/
theorem poolAllocation_exactly_once_witness :
    successCountFor [(1, 2), (1, 2), (3, 4)]
      (runMarkUsed [] [(1, 2), (1, 2), (3, 4)]).1 (1, 2) ≤ 1 :=
  poolAllocation_exactly_once.1 [] [(1, 2), (1, 2), (3, 4)] (1, 2) (by decide)

theorem emailWhereMatches_true (w : EmailWhere) (db : UsageTable) (a : EmailAccount)
    (h : emailWhereMatches w db a = true) :
    (w.statusActive = true → a.status = EmailStatus.ACTIVE) ∧
    (∀ k, w.notUsedByKey = some k → (k, a.id) ∉ db) ∧
    (∀ g, w.groupIdEq = some g → a.groupId = some g) ∧
    (∀ l, w.groupIdIn = some l → ∃ g, a.groupId = some g ∧ g ∈ l) ∧
    (∀ l, w.idIn = some l → a.id ∈ l) := by
  unfold emailWhereMatches at h
  simp only [Bool.and_eq_true] at h
  obtain ⟨⟨⟨⟨h1, h2⟩, h3⟩, h4⟩, h5⟩ := h
  refine ⟨?_, ?_, ?_, ?_, ?_⟩
  · intro hs
    rw [hs] at h1
    simp at h1
    exact h1
  · intro k hk
    rw [hk] at h2
    simp at h2
    exact h2
  · intro g hg
    rw [hg] at h3
    simp at h3
    exact h3
  · intro l hl
    rw [hl] at h4
    cases hga : a.groupId with
    | none =>
      rw [hga] at h4
      exact absurd h4 (by simp)
    | some g =>
      rw [hga] at h4
      simp at h4
      exact ⟨g, rfl, h4⟩
  · intro l hl
    rw [hl] at h5
    simp at h5
    exact h5

theorem applyScopeToEmailWhere_base_ok (apiKeyId : Nat) (scope : ApiKeyScope)
    (groupId : Option Nat) (w' : EmailWhere)
    (h : applyScopeToEmailWhere ⟨true, some apiKeyId, none, none, none⟩ scope groupId = .ok w') :
    w'.statusActive = true ∧ w'.notUsedByKey = some apiKeyId ∧
    w'.idIn = scope.allowedEmailIds ∧
    (∀ g, groupId = some g →
      w'.groupIdEq = some g ∧ (∀ l, scope.allowedGroupIds = some l → g ∈ l)) ∧
    (groupId = none → w'.groupIdEq = none ∧ w'.groupIdIn = scope.allowedGroupIds) := by
  unfold applyScopeToEmailWhere applyGroupScope at h
  cases groupId with
  | some g =>
    cases hsg : scope.allowedGroupIds with
    | some l =>
      simp only [hsg] at h
      by_cases hmem : g ∈ l
      · rw [if_pos hmem] at h
        cases hse : scope.allowedEmailIds with
        | some el =>
          simp only [hse] at h
          rw [← Except.ok.inj h]
          refine ⟨rfl, rfl, rfl, ?_, ?_⟩
          · intro g2 hg2
            cases Option.some_inj.mp hg2
            exact ⟨rfl, fun l2 hl2 => (Option.some_inj.mp hl2) ▸ hmem⟩
          · intro hn
            exact absurd hn (by simp)
        | none =>
          simp only [hse] at h
          rw [← Except.ok.inj h]
          refine ⟨rfl, rfl, rfl, ?_, ?_⟩
          · intro g2 hg2
            cases Option.some_inj.mp hg2
            exact ⟨rfl, fun l2 hl2 => (Option.some_inj.mp hl2) ▸ hmem⟩
          · intro hn
            exact absurd hn (by simp)
      · rw [if_neg hmem] at h
        exact absurd h (by simp)
    | none =>
      simp only [hsg] at h
      cases hse : scope.allowedEmailIds with
      | some el =>
        simp only [hse] at h
        rw [← Except.ok.inj h]
        refine ⟨rfl, rfl, rfl, ?_, ?_⟩
        · intro g2 hg2
          cases Option.some_inj.mp hg2
          exact ⟨rfl, fun l2 hl2 => absurd hl2 (by simp)⟩
        · intro hn
          exact absurd hn (by simp)
      | none =>
        simp only [hse] at h
        rw [← Except.ok.inj h]
        refine ⟨rfl, rfl, rfl, ?_, ?_⟩
        · intro g2 hg2
          cases Option.some_inj.mp hg2
          exact ⟨rfl, fun l2 hl2 => absurd hl2 (by simp)⟩
        · intro hn
          exact absurd hn (by simp)
  | none =>
    cases hsg : scope.allowedGroupIds with
    | some l =>
      simp only [hsg] at h
      cases hse : scope.allowedEmailIds with
      | some el =>
        simp only [hse] at h
        rw [← Except.ok.inj h]
        exact ⟨rfl, rfl, rfl, fun g2 hg2 => absurd hg2 (by simp), fun _ => ⟨rfl, rfl⟩⟩
      | none =>
        simp only [hse] at h
        rw [← Except.ok.inj h]
        exact ⟨rfl, rfl, rfl, fun g2 hg2 => absurd hg2 (by simp), fun _ => ⟨rfl, rfl⟩⟩
    | none =>
      simp only [hsg] at h
      cases hse : scope.allowedEmailIds with
      | some el =>
        simp only [hse] at h
        rw [← Except.ok.inj h]
        exact ⟨rfl, rfl, rfl, fun g2 hg2 => absurd hg2 (by simp), fun _ => ⟨rfl, rfl⟩⟩
      | none =>
        simp only [hse] at h
        rw [← Except.ok.inj h]
        exact ⟨rfl, rfl, rfl, fun g2 hg2 => absurd hg2 (by simp), fun _ => ⟨rfl, rfl⟩⟩

theorem getUnusedEmail_ok_some (dec : String → String) (pool : List EmailAccount)
    (db : UsageTable) (apiKeyId : Nat) (scope : ApiKeyScope) (groupId : Option Nat)
    (a : AllocatedEmail)
    (h : getUnusedEmail dec pool db apiKeyId scope groupId = .ok (some a)) :
    ∃ w a0, applyScopeToEmailWhere ⟨true, some apiKeyId, none, none, none⟩ scope groupId = .ok w ∧
      (sortById pool).find? (emailWhereMatches w db) = some a0 ∧
      a = ⟨a0.id, a0.email, a0.clientId, dec a0.refreshToken, a0.groupId,
        a0.groupFetchStrategy.getD FetchStrategy.GRAPH_FIRST⟩ := by
  unfold getUnusedEmail at h
  cases happ : applyScopeToEmailWhere ⟨true, some apiKeyId, none, none, none⟩ scope groupId with
  | error e =>
    rw [happ] at h
    simp [bind, Except.bind] at h
  | ok w =>
    rw [happ] at h
    simp only [bind, Except.bind] at h
    cases hf : (sortById pool).find? (emailWhereMatches w db) with
    | none =>
      rw [hf] at h
      simp [pure, Except.pure] at h
    | some a0 =>
      rw [hf] at h
      simp [pure, Except.pure] at h
      exact ⟨w, a0, rfl, hf, h.symm⟩

theorem getApiKeyScope_groups_some (rawGroupIds rawEmailIds : Option (List Int))
    (hne : parseJsonIdList rawGroupIds ≠ []) :
    (getApiKeyScope rawGroupIds rawEmailIds).allowedGroupIds =
      some (parseJsonIdList rawGroupIds) := by
  have hpos : (parseJsonIdList rawGroupIds).length > 0 := List.length_pos.mpr hne
  simp only [getApiKeyScope]
  rw [if_pos hpos]

theorem getApiKeyScope_emails_some (rawGroupIds rawEmailIds : Option (List Int))
    (hne : parseJsonIdList rawEmailIds ≠ []) :
    (getApiKeyScope rawGroupIds rawEmailIds).allowedEmailIds =
      some (parseJsonIdList rawEmailIds) := by
  have hpos : (parseJsonIdList rawEmailIds).length > 0 := List.length_pos.mpr hne
  simp only [getApiKeyScope]
  rw [if_pos hpos]

/-- Claim C3: `getUnusedEmail` never returns a mailbox outside the
credential's resolved scope: with a non-empty group allow-list the returned
mailbox's group is in the allow-list (and explicitly requesting a group
outside the allow-list fails `GROUP_FORBIDDEN` with 403); with a non-empty
email allow-list the returned mailbox id is in the allow-list. -/
theorem getUnusedEmail_scope_closure :
    (∀ (dec : String → String) (pool : List EmailAccount) (db : UsageTable)
       (apiKeyId : Nat) (rawGroupIds rawEmailIds : Option (List Int))
       (groupId : Option Nat) (a : AllocatedEmail),
      getUnusedEmail dec pool db apiKeyId (getApiKeyScope rawGroupIds rawEmailIds) groupId =
        .ok (some a) →
      (parseJsonIdList rawGroupIds ≠ [] →
        ∃ g, a.groupId = some g ∧ g ∈ parseJsonIdList rawGroupIds) ∧
      (parseJsonIdList rawEmailIds ≠ [] → a.id ∈ parseJsonIdList rawEmailIds)) ∧
    (∀ (dec : String → String) (pool : List EmailAccount) (db : UsageTable)
       (apiKeyId : Nat) (rawGroupIds rawEmailIds : Option (List Int)) (g : Nat),
      parseJsonIdList rawGroupIds ≠ [] → g ∉ parseJsonIdList rawGroupIds →
      getUnusedEmail dec pool db apiKeyId (getApiKeyScope rawGroupIds rawEmailIds) (some g) =
        .error groupForbiddenError ∧ groupForbiddenError.statusCode = 403) := by
  constructor
  · intro dec pool db apiKeyId rawGroupIds rawEmailIds groupId a h
    obtain ⟨w, a0, happ, hf, ha⟩ :=
      getUnusedEmail_ok_some dec pool db apiKeyId _ groupId a h
    have hm := List.find?_some hf
    obtain ⟨hS, hU, hEq, hIn, hId⟩ := emailWhereMatches_true w db a0 hm
    obtain ⟨hw1, hw2, hw3, hw4, hw5⟩ :=
      applyScopeToEmailWhere_base_ok apiKeyId _ groupId w happ
    have haG : a.groupId = a0.groupId := by
      rw [ha]
    have haI : a.id = a0.id := by
      rw [ha]
    constructor
    · intro hne
      have hsg := getApiKeyScope_groups_some rawGroupIds rawEmailIds hne
      cases groupId with
      | some g =>
        obtain ⟨hEqg, hmemall⟩ := hw4 g rfl
        exact ⟨g, haG ▸ hEq g hEqg, hmemall _ hsg⟩
      | none =>
        obtain ⟨_, hGIn⟩ := hw5 rfl
        obtain ⟨g, hg1, hg2⟩ := hIn (parseJsonIdList rawGroupIds) (by rw [hGIn, hsg])
        exact ⟨g, haG ▸ hg1, hg2⟩
    · intro hne
      have hse := getApiKeyScope_emails_some rawGroupIds rawEmailIds hne
      exact haI ▸ hId (parseJsonIdList rawEmailIds) (by rw [hw3, hse])
  · intro dec pool db apiKeyId rawGroupIds rawEmailIds g hne hnotin
    have hsg := getApiKeyScope_groups_some rawGroupIds rawEmailIds hne
    have happ : applyScopeToEmailWhere ⟨true, some apiKeyId, none, none, none⟩
        (getApiKeyScope rawGroupIds rawEmailIds) (some g) = .error groupForbiddenError := by
      unfold applyScopeToEmailWhere applyGroupScope
      simp only [hsg, if_neg hnotin]
    constructor
    · unfold getUnusedEmail
      rw [happ]
      rfl
    · rfl

/-- Witness for C3: a concrete one-mailbox pool and a group allow-list. -/
theorem getUnusedEmail_scope_closure_witness :
    ∃ g, (AllocatedEmail.mk 1 "a@x" "c" "rt" (some 7) FetchStrategy.GRAPH_FIRST).groupId =
        some g ∧ g ∈ parseJsonIdList (some [7]) :=
  (getUnusedEmail_scope_closure.1 id
    [⟨1, "a@x", "c", "rt", EmailStatus.ACTIVE, some 7, none⟩] [] 1 (some [7]) none none
    ⟨1, "a@x", "c", "rt", some 7, FetchStrategy.GRAPH_FIRST⟩ (by rfl)).1 (by decide)

/-- The fields of the OAuth token-endpoint response read by
`getGraphAccessToken` (`OAuthTokenResponse` plus `response.ok`). -/
structure TokenResponse where
  ok : Bool
  access_token : Option String
  expires_in : Option Int
  scope : Option String
deriving DecidableEq

/-- The token cache: key to (access token, TTL in seconds). -/
abbrev TokenCache := List (String × String × Int)

def mailReadScope : String := "https://graph.microsoft.com/Mail.Read"

/-- `scopeText.includes('https://graph.microsoft.com/Mail.Read')`. -/
def scopeContainsMailRead (s : String) : Bool :=
  decide (mailReadScope.toList <:+: s.toList)

def graphTokenCacheKey (email : String) : String :=
  "graph_api_access_token_" ++ email

/-- `mailService.getGraphAccessToken` from `mail.service.ts` lines 146-208:
a cache hit short-circuits (cached tokens are trusted to carry Mail.Read); a
failed or token-less response yields `null`; a fresh token is cached with
TTL `expires_in − 60` only when the returned scope string contains Mail.Read.
`resp = none` stands for a thrown network error (the catch returns null). -/
def getGraphAccessToken (cache : TokenCache) (email : String) (resp : Option TokenResponse) :
    Option (String × Bool) × TokenCache :=
  match assocGet cache (graphTokenCacheKey email) with
  | some entry => (some (entry.1, true), cache)
  | none =>
    match resp with
    | none => (none, cache)
    | some r =>
      if !r.ok then (none, cache)
      else
        let hasMailRead := scopeContainsMailRead (r.scope.getD "")
        match r.access_token with
        | none => (none, cache)
        | some tok =>
          if hasMailRead then
            (some (tok, true),
             assocSet cache (graphTokenCacheKey email) (tok, (r.expires_in.getD 3600) - 60))
          else (some (tok, false), cache)

/-- A sequence of `getGraphAccessToken` calls, threading the cache. -/
def runGraphTokenCalls (cache : TokenCache) :
    List (String × Option TokenResponse) → TokenCache
  | [] => cache
  | (email, resp) :: rest => runGraphTokenCalls (getGraphAccessToken cache email resp).2 rest

/-- Every readable cache entry was stored from some processed response that
succeeded, carried that access token, contained the Mail.Read scope, and set
TTL `expires_in − 60` (3600 s assumed when the field is absent). -/
def GraphCacheOk (calls : List (String × Option TokenResponse)) (cache : TokenCache) : Prop :=
  ∀ k tok ttl, assocGet cache k = some (tok, ttl) →
    ∃ email r, (email, some r) ∈ calls ∧ k = graphTokenCacheKey email ∧
      r.ok = true ∧ r.access_token = some tok ∧
      scopeContainsMailRead (r.scope.getD "") = true ∧
      ttl = (r.expires_in.getD 3600) - 60

theorem graphCacheOk_mono (calls more : List (String × Option TokenResponse))
    (cache : TokenCache) (h : GraphCacheOk calls cache) : GraphCacheOk (calls ++ more) cache := by
  intro k tok ttl hget
  obtain ⟨email, r, hmem, hrest⟩ := h k tok ttl hget
  exact ⟨email, r, List.mem_append_left more hmem, hrest⟩

theorem graphCacheOk_step (calls : List (String × Option TokenResponse)) (cache : TokenCache)
    (h : GraphCacheOk calls cache) (email : String) (resp : Option TokenResponse) :
    GraphCacheOk (calls ++ [(email, resp)]) (getGraphAccessToken cache email resp).2 := by
  have hsub : GraphCacheOk (calls ++ [(email, resp)]) cache :=
    graphCacheOk_mono calls [(email, resp)] cache h
  cases hc : assocGet cache (graphTokenCacheKey email) with
  | some entry =>
    have heval : (getGraphAccessToken cache email resp).2 = cache := by
      simp [getGraphAccessToken, hc]
    rw [heval]
    exact hsub
  | none =>
    cases resp with
    | none =>
      have heval : (getGraphAccessToken cache email none).2 = cache := by
        simp [getGraphAccessToken, hc]
      rw [heval]
      exact hsub
    | some r =>
      by_cases hok : r.ok = true
      · cases hat : r.access_token with
        | none =>
          have heval : (getGraphAccessToken cache email (some r)).2 = cache := by
            simp [getGraphAccessToken, hc, hok, hat]
          rw [heval]
          exact hsub
        | some tok =>
          by_cases hmr : scopeContainsMailRead (r.scope.getD "") = true
          · have heval : (getGraphAccessToken cache email (some r)).2 =
                assocSet cache (graphTokenCacheKey email)
                  (tok, (r.expires_in.getD 3600) - 60) := by
              simp [getGraphAccessToken, hc, hok, hat, hmr]
            rw [heval]
            intro k tok2 ttl2 hget
            by_cases hk : k = graphTokenCacheKey email
            · subst hk
              rw [assocGet_assocSet_self] at hget
              have h12 := Option.some_inj.mp hget
              refine ⟨email, r, List.mem_append_right calls (by simp), rfl, hok, ?_, hmr, ?_⟩
              · rw [hat]
                exact congrArg some (congrArg Prod.fst h12)
              · exact (congrArg Prod.snd h12).symm
            · rw [assocGet_assocSet_ne cache _ k _ hk] at hget
              exact hsub k tok2 ttl2 hget
          · have heval : (getGraphAccessToken cache email (some r)).2 = cache := by
              simp [getGraphAccessToken, hc, hok, hat, hmr]
            rw [heval]
            exact hsub
      · have hokf : r.ok = false := by
          revert hok
          cases r.ok <;> simp
        have heval : (getGraphAccessToken cache email (some r)).2 = cache := by
          simp [getGraphAccessToken, hc, hokf]
        rw [heval]
        exact hsub

theorem graphCacheOk_run (calls : List (String × Option TokenResponse)) :
    ∀ (done : List (String × Option TokenResponse)) (cache : TokenCache),
      GraphCacheOk done cache →
      GraphCacheOk (done ++ calls) (runGraphTokenCalls cache calls) := by
  induction calls with
  | nil =>
    intro done cache h
    rw [List.append_nil]
    exact h
  | cons c rest ih =>
    intro done cache h
    obtain ⟨email, resp⟩ := c
    have hstep := graphCacheOk_step done cache h email resp
    have := ih (done ++ [(email, resp)]) (getGraphAccessToken cache email resp).2 hstep
    rw [List.append_assoc] at this
    exact this

/-- Claim C7: starting from an empty cache, after any sequence of
`getGraphAccessToken` calls every cache entry was stored from a token-endpoint
response whose scope string contained `https://graph.microsoft.com/Mail.Read`,
with TTL `expires_in − 60` seconds; and on a cache miss a non-2xx response or
a response without `access_token` (or a thrown network error) returns null and
leaves the cache unchanged. -/
theorem getGraphAccessToken_cache_scope_correct :
    (∀ calls, GraphCacheOk calls (runGraphTokenCalls [] calls)) ∧
    (∀ (cache : TokenCache) (email : String) (r : TokenResponse),
      assocGet cache (graphTokenCacheKey email) = none →
      (r.ok = false ∨ r.access_token = none) →
      getGraphAccessToken cache email (some r) = (none, cache) ∧
      getGraphAccessToken cache email none = (none, cache)) := by
  constructor
  · intro calls
    have h0 : GraphCacheOk [] [] := by
      intro k tok ttl hget
      exact absurd hget (by simp [assocGet])
    have := graphCacheOk_run calls [] [] h0
    rw [List.nil_append] at this
    exact this
  · intro cache email r hmiss hbad
    constructor
    · rcases hbad with hok | hat
      · simp [getGraphAccessToken, hmiss, hok]
      · by_cases hok : r.ok = true
        · simp [getGraphAccessToken, hmiss, hok, hat]
        · have hokf : r.ok = false := by
            revert hok
            cases r.ok <;> simp
          simp [getGraphAccessToken, hmiss, hokf]
    · simp [getGraphAccessToken, hmiss]

/-- Witness for C7: one successful Mail.Read response populates the cache with
an entry traceable to it. -/
theorem getGraphAccessToken_cache_scope_correct_witness :
    ∃ email r,
      (email, some r) ∈
        [("a@x", some (TokenResponse.mk true (some "T") (some 3600) (some mailReadScope)))] ∧
      graphTokenCacheKey "a@x" = graphTokenCacheKey email ∧
      r.ok = true ∧ r.access_token = some "T" ∧
      scopeContainsMailRead (r.scope.getD "") = true ∧
      (3540 : Int) = (r.expires_in.getD 3600) - 60 :=
  getGraphAccessToken_cache_scope_correct.1
    [("a@x", some (TokenResponse.mk true (some "T") (some 3600) (some mailReadScope)))]
    (graphTokenCacheKey "a@x") "T" 3540 (by decide)

/-- An email message as projected by both mail clients (`EmailMessage` in
`mail.service.ts`; `fromAddr` models the `from` field). -/
structure EmailMessage where
  id : String
  fromAddr : String
  subject : String
  text : String
  html : String
  date : String
deriving DecidableEq

/-- The value returned by `mailService.getEmails`. -/
structure FetchResult where
  email : String
  mailbox : String
  count : Nat
  messages : List EmailMessage
  method : String
deriving DecidableEq

inductive FetchError
  | imapTokenFailed
  | upstream (msg : String)
deriving DecidableEq

/-- The outcomes of the external calls `getEmails` can make: the Graph token
exchange (token and its `hasMailRead` flag), the Graph listing, the scopeless
IMAP token exchange, and the IMAP listing. -/
structure FetchEnv where
  graphToken : Option (String × Bool)
  graphFetch : Except String (List EmailMessage)
  imapToken : Option String
  imapFetch : Except String (List EmailMessage)

/-- The IMAP leg of `getEmails` (`mail.service.ts` lines 479-501): no token
is `IMAP_TOKEN_FAILED` (500); an IMAP failure is re-raised. -/
def imapFallback (env : FetchEnv) (email mailbox : String) : Except FetchError FetchResult :=
  match env.imapToken with
  | none => .error .imapTokenFailed
  | some _ =>
    match env.imapFetch with
    | .ok msgs => .ok ⟨email, mailbox, msgs.length, msgs, "imap"⟩
    | .error e => .error (.upstream e)

/-- `mailService.getEmails` (`mail.service.ts` lines 447-502): use Graph when
the token is present with Mail.Read and the listing succeeds; otherwise fall
back to IMAP.  The group's fetch strategy is not an input: the code never
consults it. -/
def getEmailsModel (env : FetchEnv) (email mailbox : String) : Except FetchError FetchResult :=
  match env.graphToken with
  | some (_, true) =>
    match env.graphFetch with
    | .ok msgs => .ok ⟨email, mailbox, msgs.length, msgs, "graph_api"⟩
    | .error _ => imapFallback env email mailbox
  | _ => imapFallback env email mailbox

/-- Modelled from the spec (§4.13): a Graph attempt succeeds when the token
carries Mail.Read and the listing succeeds. -/
def specGraphAttempt (env : FetchEnv) (email mailbox : String) : Option FetchResult :=
  match env.graphToken with
  | some (_, true) =>
    match env.graphFetch with
    | .ok msgs => some ⟨email, mailbox, msgs.length, msgs, "graph_api"⟩
    | .error _ => none
  | _ => none

/-- Modelled from the spec (§4.13 step 2): the IMAP leg — scopeless token,
`ImapTokenFailed` when null, errors re-raised. -/
def specImapLeg (env : FetchEnv) (email mailbox : String) : Except FetchError FetchResult :=
  match env.imapToken with
  | none => .error .imapTokenFailed
  | some _ =>
    match env.imapFetch with
    | .ok msgs => .ok ⟨email, mailbox, msgs.length, msgs, "imap"⟩
    | .error e => .error (.upstream e)

/-- Modelled from the spec (§4.13): the Graph leg with fallback disabled. -/
def specGraphLeg (env : FetchEnv) (email mailbox : String) : Except FetchError FetchResult :=
  match specGraphAttempt env email mailbox with
  | some r => .ok r
  | none => .error (.upstream "graph_api failed")

/-- Modelled from the spec (§3, §4.13): the fetch behaviour the group's
`fetch_strategy` is specified to select — `GraphFirst` tries Graph then IMAP,
`ImapFirst` the reverse, `GraphOnly`/`ImapOnly` disable the fallback. -/
def specStrategyFetch (s : FetchStrategy) (env : FetchEnv) (email mailbox : String) :
    Except FetchError FetchResult :=
  match s with
  | .GRAPH_FIRST =>
    match specGraphAttempt env email mailbox with
    | some r => .ok r
    | none => specImapLeg env email mailbox
  | .IMAP_FIRST =>
    match specImapLeg env email mailbox with
    | .ok r => .ok r
    | .error _ => specGraphLeg env email mailbox
  | .GRAPH_ONLY => specGraphLeg env email mailbox
  | .IMAP_ONLY => specImapLeg env email mailbox

/-- Counterexample to C8 as stated: a mailbox whose group is configured
`IMAP_ONLY`, in an environment where both legs would succeed: `getEmails`
still fetches via Graph (`method = "graph_api"`), while the specified
`ImapOnly` behaviour performs only IMAP — the orchestrator does not honor
`fetch_strategy`. -/
theorem getEmails_ignores_fetch_strategy_counterexample :
    getEmailsModel
        ⟨some ("t", true), .ok [], some "it", .ok [⟨"m1", "f", "s", "txt", "h", "d"⟩]⟩
        "a@x" "inbox" =
      .ok ⟨"a@x", "inbox", 0, [], "graph_api"⟩ ∧
    specStrategyFetch FetchStrategy.IMAP_ONLY
        ⟨some ("t", true), .ok [], some "it", .ok [⟨"m1", "f", "s", "txt", "h", "d"⟩]⟩
        "a@x" "inbox" =
      .ok ⟨"a@x", "inbox", 1, [⟨"m1", "f", "s", "txt", "h", "d"⟩], "imap"⟩ ∧
    ("graph_api" : String) ≠ "imap" := by
  refine ⟨rfl, rfl, by decide⟩

/-- Claim C8 (amended): `getEmails` behaves as the spec's `GraphFirst`
strategy for every mailbox fetch, regardless of the group's configured
`fetch_strategy` — the strategy surfaced by `getUnusedEmail` is never
consulted by the orchestrator, so `ImapFirst`, `GraphOnly` and `ImapOnly`
behave identically to `GraphFirst`. -/
theorem getEmails_always_graph_first :
    ∀ (env : FetchEnv) (email mailbox : String),
      getEmailsModel env email mailbox =
        specStrategyFetch FetchStrategy.GRAPH_FIRST env email mailbox := by
  intro env email mailbox
  obtain ⟨gt, gf, it, imf⟩ := env
  cases gt with
  | none => rfl
  | some p =>
    obtain ⟨tok, hasMR⟩ := p
    cases hasMR with
    | false => rfl
    | true =>
      cases gf with
      | ok msgs => rfl
      | error e => rfl

inductive ContentType
  | textPlain
  | appJson
deriving DecidableEq

inductive RespBody
  | text (s : String)
  | jsonError (code : String) (message : String)
deriving DecidableEq

structure HttpResponse where
  status : Nat
  contentType : ContentType
  body : RespBody
deriving DecidableEq

/-- The outcome of `content.match(new RegExp(pattern))` in JS: the constructor
may throw (`invalid`), the match may fail, or it returns the full match and
the first capture group — which is `undefined` when the group did not
participate and may be the empty string. -/
inductive RegexOutcome
  | invalid
  | noMatch
  | matched (full : String) (group1 : Option String)
deriving DecidableEq

/-- `getErrorMessage` from the routes file: an empty (or all-whitespace)
message becomes "Unknown error". -/
def getErrorMessageModel (m : String) : String :=
  if jsTrim m.toList = [] then "Unknown error" else m

/-- The `/mail_text` handler (`src/unnamed/part_010` lines 193-291).
`parsed = none` means the zod schema threw, which happens before the
handler's own error handling and is answered by the global error plugin with
the JSON envelope.  `permError` is the error thrown by
`assertApiPermission`, if any (its definition is outside the snapshot; the
handler only forwards its status and message).  `fetch` is the outcome of
`mailService.getEmails`, whose message list is newest-first.  `regex` is the
JS regex engine. -/
def mailTextRoute (regex : String → String → RegexOutcome)
    (parsed : Option (String × Option String)) (apiKeyPresent : Bool)
    (permError : Option AppError) (emailFound : Bool)
    (fetch : Except String (List EmailMessage)) : HttpResponse :=
  match parsed with
  | none => ⟨400, .appJson, .jsonError "VALIDATION_ERROR" "Invalid request data"⟩
  | some (_, matchPat) =>
    if !apiKeyPresent then ⟨401, .textPlain, .text "Error: API Key required"⟩
    else
      match permError with
      | some e => ⟨e.statusCode, .textPlain, .text ("Error: " ++ getErrorMessageModel e.message)⟩
      | none =>
        if !emailFound then ⟨404, .textPlain, .text "Error: Email account not found"⟩
        else
          match fetch with
          | .error e => ⟨500, .textPlain, .text ("Error: " ++ getErrorMessageModel e)⟩
          | .ok [] => ⟨200, .textPlain, .text "Error: No messages found"⟩
          | .ok (m :: _) =>
            match matchPat with
            | none => ⟨200, .textPlain, .text m.text⟩
            | some pat =>
              match regex pat m.text with
              | .invalid => ⟨400, .textPlain, .text "Error: Invalid regex pattern"⟩
              | .noMatch => ⟨404, .textPlain, .text "Error: No match found"⟩
              | .matched full g1 =>
                ⟨200, .textPlain, .text
                  (match g1 with
                   | some s => if s = "" then full else s
                   | none => full)⟩

/-- Counterexample to C9 as stated: (i) a request that fails schema
validation (e.g. a malformed `email`) is answered by the global error handler
with the JSON envelope, not `text/plain`; (ii) when the first capture group
matches the empty string (JS `match[1] || match[0]` is falsy on `""`, as for
pattern `(a*)b` on text `"b"`), the body is the entire match, not the capture
group. -/
theorem mailText_counterexample :
    (mailTextRoute (fun _ _ => .noMatch) none true none true (.ok [])).contentType =
      ContentType.appJson ∧
    ContentType.appJson ≠ ContentType.textPlain ∧
    (mailTextRoute (fun _ _ => .matched "b" (some ""))
        (some ("a@x", some "(a*)b")) true none true
        (.ok [⟨"m1", "f", "s", "b", "h", "d"⟩])).body = .text "b" ∧
    ("b" : String) ≠ "" := by
  refine ⟨rfl, by decide, rfl, by decide⟩

/-- Claim C9 (amended): for every request that passes schema validation the
`/mail_text` response is `text/plain`; a schema-validation failure is
answered by the global JSON error envelope (400) instead; with no `match`
parameter the body is the full text of the newest message; with a `match`
whose regex matches, the body is the first capture group when it matched a
non-empty string, otherwise the entire match; and every error path responds
`Error: {message}` as `text/plain`. -/
theorem mailTextRoute_characterization :
    ∀ (regex : String → String → RegexOutcome) (parsed : Option (String × Option String))
      (apiKeyPresent : Bool) (permError : Option AppError) (emailFound : Bool)
      (fetch : Except String (List EmailMessage)),
      (parsed = none →
        mailTextRoute regex parsed apiKeyPresent permError emailFound fetch =
          ⟨400, .appJson, .jsonError "VALIDATION_ERROR" "Invalid request data"⟩) ∧
      (∀ email matchPat, parsed = some (email, matchPat) →
        (mailTextRoute regex parsed apiKeyPresent permError emailFound fetch).contentType =
          ContentType.textPlain ∧
        (apiKeyPresent = false →
          mailTextRoute regex parsed apiKeyPresent permError emailFound fetch =
            ⟨401, .textPlain, .text "Error: API Key required"⟩) ∧
        (∀ e, apiKeyPresent = true → permError = some e →
          mailTextRoute regex parsed apiKeyPresent permError emailFound fetch =
            ⟨e.statusCode, .textPlain, .text ("Error: " ++ getErrorMessageModel e.message)⟩) ∧
        (apiKeyPresent = true → permError = none → emailFound = false →
          mailTextRoute regex parsed apiKeyPresent permError emailFound fetch =
            ⟨404, .textPlain, .text "Error: Email account not found"⟩) ∧
        (∀ e, apiKeyPresent = true → permError = none → emailFound = true →
          fetch = .error e →
          mailTextRoute regex parsed apiKeyPresent permError emailFound fetch =
            ⟨500, .textPlain, .text ("Error: " ++ getErrorMessageModel e)⟩) ∧
        (apiKeyPresent = true → permError = none → emailFound = true → fetch = .ok [] →
          mailTextRoute regex parsed apiKeyPresent permError emailFound fetch =
            ⟨200, .textPlain, .text "Error: No messages found"⟩) ∧
        (∀ m rest, apiKeyPresent = true → permError = none → emailFound = true →
          fetch = .ok (m :: rest) →
          (matchPat = none →
            mailTextRoute regex parsed apiKeyPresent permError emailFound fetch =
              ⟨200, .textPlain, .text m.text⟩) ∧
          (∀ pat, matchPat = some pat →
            (regex pat m.text = .invalid →
              mailTextRoute regex parsed apiKeyPresent permError emailFound fetch =
                ⟨400, .textPlain, .text "Error: Invalid regex pattern"⟩) ∧
            (regex pat m.text = .noMatch →
              mailTextRoute regex parsed apiKeyPresent permError emailFound fetch =
                ⟨404, .textPlain, .text "Error: No match found"⟩) ∧
            (∀ full s, regex pat m.text = .matched full (some s) → s ≠ "" →
              mailTextRoute regex parsed apiKeyPresent permError emailFound fetch =
                ⟨200, .textPlain, .text s⟩) ∧
            (∀ full, regex pat m.text = .matched full (some "") →
              mailTextRoute regex parsed apiKeyPresent permError emailFound fetch =
                ⟨200, .textPlain, .text full⟩) ∧
            (∀ full, regex pat m.text = .matched full none →
              mailTextRoute regex parsed apiKeyPresent permError emailFound fetch =
                ⟨200, .textPlain, .text full⟩)))) := by
  intro regex parsed apiKeyPresent permError emailFound fetch
  constructor
  · intro hp
    subst hp
    rfl
  · intro email matchPat hp
    subst hp
    constructor
    · cases apiKeyPresent with
      | false => rfl
      | true =>
        cases permError with
        | some e => rfl
        | none =>
          cases emailFound with
          | false => rfl
          | true =>
            cases fetch with
            | error e => rfl
            | ok msgs =>
              cases msgs with
              | nil => rfl
              | cons m rest =>
                cases matchPat with
                | none => rfl
                | some pat =>
                  cases hr : regex pat m.text with
                  | invalid => simp [mailTextRoute, hr]
                  | noMatch => simp [mailTextRoute, hr]
                  | matched full g1 => simp [mailTextRoute, hr]
    · refine ⟨?_, ?_, ?_, ?_, ?_, ?_⟩
      · intro hk
        subst hk
        rfl
      · intro e hk hp2
        subst hk
        subst hp2
        rfl
      · intro hk hp2 hf
        subst hk
        subst hp2
        subst hf
        rfl
      · intro e hk hp2 hf hfe
        subst hk
        subst hp2
        subst hf
        subst hfe
        rfl
      · intro hk hp2 hf hfe
        subst hk
        subst hp2
        subst hf
        subst hfe
        rfl
      · intro m rest hk hp2 hf hfe
        subst hk
        subst hp2
        subst hf
        subst hfe
        constructor
        · intro hm
          subst hm
          rfl
        · intro pat hm
          subst hm
          refine ⟨?_, ?_, ?_, ?_, ?_⟩
          · intro hr
            simp [mailTextRoute, hr]
          · intro hr
            simp [mailTextRoute, hr]
          · intro full s hr hs
            simp [mailTextRoute, hr, hs]
          · intro full hr
            simp [mailTextRoute, hr]
          · intro full hr
            simp [mailTextRoute, hr]

/-- Witness for C9 (amended) at a concrete six-digit extraction: the regex
matched with a non-empty first capture group, and the body is that group. -/
theorem mailTextRoute_characterization_witness :
    mailTextRoute (fun _ _ => .matched "482913" (some "482913"))
        (some ("a@x", some "\\d{6}")) true none true
        (.ok [⟨"m1", "f", "s", "Your code is 482913", "h", "d"⟩]) =
      ⟨200, ContentType.textPlain, RespBody.text "482913"⟩ :=
  ((((mailTextRoute_characterization (fun _ _ => .matched "482913" (some "482913"))
      (some ("a@x", some "\\d{6}")) true none true
      (.ok [⟨"m1", "f", "s", "Your code is 482913", "h", "d"⟩])).2
    "a@x" (some "\\d{6}") rfl).2.2.2.2.2.2
    ⟨"m1", "f", "s", "Your code is 482913", "h", "d"⟩ [] rfl rfl rfl rfl).2
    "\\d{6}" rfl).2.2.1 "482913" "482913" rfl (by decide)

/-- The base32 alphabet `A-Z2-7` of `totp.ts`. -/
def base32Alphabet : List Char := "ABCDEFGHIJKLMNOPQRSTUVWXYZ234567".toList

/-- The five bits of a base32 digit value, most significant first. -/
def natBits5 (n : Nat) : List Bool :=
  [n / 16 % 2 = 1, n / 8 % 2 = 1, n / 4 % 2 = 1, n / 2 % 2 = 1, n % 2 = 1]

/-- Consecutive 8-bit groups to byte values; a trailing group of fewer than
8 bits is discarded (`i + 8 <= bits.length` in the source). -/
def bitsToBytes : List Bool → List Nat
  | b0 :: b1 :: b2 :: b3 :: b4 :: b5 :: b6 :: b7 :: rest =>
    ((if b0 then 128 else 0) + (if b1 then 64 else 0) + (if b2 then 32 else 0) +
     (if b3 then 16 else 0) + (if b4 then 8 else 0) + (if b5 then 4 else 0) +
     (if b6 then 2 else 0) + (if b7 then 1 else 0)) :: bitsToBytes rest
  | _ => []

/-- `decodeBase32` from `totp.ts`: uppercase, strip non-alphabet characters,
fail on an empty result (the source throws), then pack 5-bit digit values
into bytes. -/
def decodeBase32 (secret : String) : Option (List Nat) :=
  let normalized := (secret.toList.map Char.toUpper).filter
    (fun c => decide (c ∈ base32Alphabet))
  if normalized = [] then none
  else some (bitsToBytes ((normalized.map
    (fun c => natBits5 (base32Alphabet.indexOf c))).flatten))

/-- The 8-byte big-endian counter of a time step (`writeUInt32BE` of the high
and low halves). -/
def counterBytes (step : Nat) : List Nat :=
  [step / 2 ^ 56 % 256, step / 2 ^ 48 % 256, step / 2 ^ 40 % 256, step / 2 ^ 32 % 256,
   step / 2 ^ 24 % 256, step / 2 ^ 16 % 256, step / 2 ^ 8 % 256, step % 256]

/-- An HMAC-SHA1 oracle: key and message bytes to digest bytes.  The repo
calls `node:crypto`; theorems abstract over the function. -/
abbrev Hmac := List Nat → List Nat → List Nat

/-- `generateHotpCode` from `totp.ts`: HMAC over the counter, dynamic
truncation (offset from the last nibble, 31-bit big-endian word), modulo
10^6.  The 6-digit left-padded string is represented by the code value. -/
def generateHotpCode (hmac : Hmac) (secret : List Nat) (step : Nat) : Nat :=
  let digest := hmac secret (counterBytes step)
  let offset := digest.getD (digest.length - 1) 0 % 16
  let binary := digest.getD offset 0 % 128 * 2 ^ 24 + digest.getD (offset + 1) 0 % 256 * 2 ^ 16 +
    digest.getD (offset + 2) 0 % 256 * 2 ^ 8 + digest.getD (offset + 3) 0 % 256
  binary % 1000000

/-- `generateTotpCodeAt`: the HOTP code at step `⌊ms / 1000 / 30⌋`; `none`
models the throw on an invalid base32 secret. -/
def generateTotpCodeAt (hmac : Hmac) (secretBase32 : String) (timestampMs : Nat) : Option Nat :=
  (decodeBase32 secretBase32).map
    (fun secret => generateHotpCode hmac secret (timestampMs / 1000 / 30))

/-- `verifyTotpCode` from `totp.ts`: reject a missing or non-6-digit token
(the regex check, with the token given as its numeric value), clamp the
window to `[0, 5]`, and accept when any step within the window generates the
token.  Negative steps (only reachable within 2.5 minutes of the epoch) are
clamped at 0 where the source would throw. -/
def verifyTotpCode (hmac : Hmac) (secretBase32 : String) (token : Option Nat)
    (window : Nat) (timestampMs : Nat) : Bool :=
  match token with
  | none => false
  | some tok =>
    if 1000000 ≤ tok then false
    else
      match decodeBase32 secretBase32 with
      | none => false
      | some secret =>
        let currentStep := timestampMs / 1000 / 30
        let safeWindow := min window 5
        (List.range (2 * safeWindow + 1)).any
          (fun i => generateHotpCode hmac secret
            (((currentStep + i : Nat) : Int) - (safeWindow : Int)).toNat == tok)

/-- A degenerate HMAC oracle (constant digest), used to exhibit behaviour
that holds for every HMAC. -/
def constHmac : Hmac := fun _ _ => List.replicate 20 0

/-- An HMAC oracle whose HOTP codes equal the step (for steps below 256):
digest `[0, m₅, m₆, m₇, 0 × 15, 0]` puts the low counter bytes in the
truncation window. -/
def injHmacModel : Hmac :=
  fun _ msg => 0 :: msg.getD 5 0 :: msg.getD 6 0 :: msg.getD 7 0 :: (List.replicate 15 0 ++ [0])

theorem generateHotpCode_lt (hmac : Hmac) (secret : List Nat) (step : Nat) :
    generateHotpCode hmac secret step < 1000000 := by
  unfold generateHotpCode
  exact Nat.mod_lt _ (by omega)

/-- Counterexample to C5 as stated: with Δ = 29 s and w = 0 the generation
time and the verification time fall in the same 30-second step, so
verification succeeds for every HMAC, although |Δ/30| ≤ w fails.  The
claimed bound |Δ/30| ≤ w (here: |Δ| ≤ 30000·w ms) is not the acceptance
condition; the step counters are. -/
theorem verifyTotp_interval_counterexample :
    verifyTotpCode constHmac "JBSWY3DPEHPK3PXP"
      (generateTotpCodeAt constHmac "JBSWY3DPEHPK3PXP" 0) 0 29000 = true ∧
    ¬((29000 : Nat) ≤ 30000 * 0) := by
  constructor
  · decide
  · decide

/-- Claim C5 (amended): verification is a symmetric window in 30-second
steps around the current counter: writing `step(x) = ⌊x / 30000 ms⌋`, for
any base32 secret, any HMAC oracle, window `w ≤ 5`, and times with
`w ≤ step(t_verify)`, if the codes of the steps inside the window collide
only trivially with the token's code, then verifying the code generated at
`t` against `t_verify` succeeds iff `|step(t_verify) − step(t)| ≤ w`. -/
theorem verifyTotpCode_step_window :
    ∀ (hmac : Hmac) (s : String) (secret : List Nat) (t tv w : Nat),
      decodeBase32 s = some secret → w ≤ 5 → w ≤ tv / 1000 / 30 →
      (∀ i, i ≤ 2 * w →
        generateHotpCode hmac secret (tv / 1000 / 30 - w + i) =
          generateHotpCode hmac secret (t / 1000 / 30) →
        tv / 1000 / 30 - w + i = t / 1000 / 30) →
      (verifyTotpCode hmac s (generateTotpCodeAt hmac s t) w tv = true ↔
        (tv / 1000 / 30 - t / 1000 / 30 ≤ w ∧ t / 1000 / 30 - tv / 1000 / 30 ≤ w)) := by
  intro hmac s secret t tv w hdec hw hcur hcoll
  have htok : generateTotpCodeAt hmac s t =
      some (generateHotpCode hmac secret (t / 1000 / 30)) := by
    unfold generateTotpCodeAt
    rw [hdec]
    rfl
  have hlt : generateHotpCode hmac secret (t / 1000 / 30) < 1000000 :=
    generateHotpCode_lt hmac secret _
  have hmin : min w 5 = w := Nat.min_eq_left hw
  have hver : verifyTotpCode hmac s (generateTotpCodeAt hmac s t) w tv =
      (List.range (2 * w + 1)).any (fun i => generateHotpCode hmac secret
        (((tv / 1000 / 30 + i : Nat) : Int) - (w : Int)).toNat ==
        generateHotpCode hmac secret (t / 1000 / 30)) := by
    rw [htok]
    simp only [verifyTotpCode, hdec, hmin]
    rw [if_neg (by omega)]
  rw [hver, List.any_eq_true]
  constructor
  · rintro ⟨i, hi, hp⟩
    have hiR : i < 2 * w + 1 := List.mem_range.mp hi
    simp only [beq_iff_eq] at hp
    have htn : (((tv / 1000 / 30 + i : Nat) : Int) - (w : Int)).toNat =
        tv / 1000 / 30 - w + i := by
      omega
    rw [htn] at hp
    have := hcoll i (by omega) hp
    omega
  · rintro ⟨h1, h2⟩
    refine ⟨t / 1000 / 30 + w - tv / 1000 / 30, List.mem_range.mpr (by omega), ?_⟩
    simp only [beq_iff_eq]
    have htn : (((tv / 1000 / 30 + (t / 1000 / 30 + w - tv / 1000 / 30) : Nat) : Int) -
        (w : Int)).toNat = t / 1000 / 30 := by
      omega
    rw [htn]

/-- Witness for C5 (amended) at a concrete secret, injective HMAC oracle and
times in the same step. -/
theorem verifyTotpCode_step_window_witness :
    verifyTotpCode injHmacModel "AAAA" (generateTotpCodeAt injHmacModel "AAAA" 90000) 1 90000 =
      true :=
  (verifyTotpCode_step_window injHmacModel "AAAA" [0, 0] 90000 90000 1
    (by decide) (by decide) (by decide) (by decide)).mpr (by decide)

/-- All entries are byte values. -/
def bytes256 (l : List Nat) : Prop := ∀ b ∈ l, b < 256

/-- Lowercase hex digit characters, as `Buffer.toString('hex')` emits. -/
def hexDigitChar (n : Nat) : Char :=
  match n with
  | 0 => '0' | 1 => '1' | 2 => '2' | 3 => '3' | 4 => '4'
  | 5 => '5' | 6 => '6' | 7 => '7' | 8 => '8' | 9 => '9'
  | 10 => 'a' | 11 => 'b' | 12 => 'c' | 13 => 'd' | 14 => 'e' | 15 => 'f'
  | _ => '0'

/-- The value of a hex digit, upper or lower case (`Buffer.from(·, 'hex')`
accepts both cases). -/
def hexVal (c : Char) : Option Nat :=
  if 48 ≤ c.toNat ∧ c.toNat ≤ 57 then some (c.toNat - 48)
  else if 97 ≤ c.toNat ∧ c.toNat ≤ 102 then some (c.toNat - 87)
  else if 65 ≤ c.toNat ∧ c.toNat ≤ 70 then some (c.toNat - 55)
  else none

/-- `Buffer.toString('hex')`: two lowercase digits per byte. -/
def hexEncode : List Nat → List Char
  | [] => []
  | b :: bs => hexDigitChar (b / 16) :: hexDigitChar (b % 16) :: hexEncode bs

/-- `Buffer.from(·, 'hex')` with Node's leniency: decode pairs of hex digits
and truncate at the first invalid pair (a trailing lone digit is dropped). -/
def hexDecodePairs : List Char → List Nat
  | c1 :: c2 :: rest =>
    match hexVal c1, hexVal c2 with
    | some h, some l => (16 * h + l) :: hexDecodePairs rest
    | _, _ => []
  | _ => []

/-- `String.prototype.split(':')`: all occurrences, empty segments kept. -/
def splitColon : List Char → List (List Char)
  | [] => [[]]
  | c :: rest =>
    match splitColon rest with
    | [] => [[]]
    | seg :: segs => if c = ':' then [] :: seg :: segs else (c :: seg) :: segs

/-- An authenticated cipher: `seal key iv plaintext = (authTag, ciphertext)`
and `unseal key iv authTag ciphertext`.  The repository calls Node's
AES-256-GCM; theorems abstract over the cipher. -/
structure Aead where
  aeSeal : List Nat → List Nat → List Nat → List Nat × List Nat
  aeUnseal : List Nat → List Nat → List Nat → List Nat → Option (List Nat)

inductive CryptoErr
  | badFormat
  | authFailed
deriving DecidableEq

/-- `encrypt` from `src/server/src/lib/crypto.ts`: a fresh 16-byte IV (here a
parameter), AEAD seal, and the `iv:authTag:ciphertext` hex format. -/
def encryptM (A : Aead) (key iv p : List Nat) : List Char :=
  hexEncode iv ++ ':' :: hexEncode (A.aeSeal key iv p).1 ++ ':' :: hexEncode (A.aeSeal key iv p).2

/-- `decrypt` from `src/server/src/lib/crypto.ts`: split on `:`, require
exactly three segments (`Invalid encrypted format` otherwise), hex-decode
each, and open the AEAD (whose tag-verification failure throws, modelled as
`authFailed`). -/
def decryptM (A : Aead) (key : List Nat) (blob : List Char) : Except CryptoErr (List Nat) :=
  match splitColon blob with
  | [ivh, tagh, cth] =>
    match A.aeUnseal key (hexDecodePairs ivh) (hexDecodePairs tagh) (hexDecodePairs cth) with
    | some p => .ok p
    | none => .error .authFailed
  | _ => .error .badFormat

/-- Idealization of a fixed-key AEAD: exactly the sealed triples open
(correctness and authenticity), sealing is injective, the tag determines the
plaintext and so does the ciphertext (for AES-256-GCM with a fixed key these
hold up to negligible collisions), and sealing maps bytes to bytes. -/
def IdealAead (A : Aead) (key : List Nat) : Prop :=
  (∀ iv p tag ct, A.aeUnseal key iv tag ct = some p ↔ A.aeSeal key iv p = (tag, ct)) ∧
  (∀ iv p iv2 p2, A.aeSeal key iv p = A.aeSeal key iv2 p2 → iv = iv2 ∧ p = p2) ∧
  (∀ iv p p2, (A.aeSeal key iv p).1 = (A.aeSeal key iv p2).1 → p = p2) ∧
  (∀ iv p p2, (A.aeSeal key iv p).2 = (A.aeSeal key iv p2).2 → p = p2) ∧
  (∀ iv p, bytes256 iv → bytes256 p →
    bytes256 (A.aeSeal key iv p).1 ∧ bytes256 (A.aeSeal key iv p).2)

/-- A concrete cipher satisfying `IdealAead`: the ciphertext is the plaintext
and the tag binds the IV and the ciphertext. -/
def toyAead : Aead where
  aeSeal := fun _ iv p => (iv ++ p, p)
  aeUnseal := fun _ iv tag ct => if tag = iv ++ ct then some ct else none

theorem toyAead_ideal (key : List Nat) : IdealAead toyAead key := by
  refine ⟨?_, ?_, ?_, ?_, ?_⟩
  · intro iv p tag ct
    constructor
    · intro h
      simp only [toyAead] at h ⊢
      by_cases ht : tag = iv ++ ct
      · rw [if_pos ht] at h
        rw [Option.some_inj.mp h] at ht ⊢
        rw [ht]
      · rw [if_neg ht] at h
        exact absurd h (by simp)
    · intro h
      simp only [toyAead] at h ⊢
      have h1 : iv ++ p = tag := congrArg Prod.fst h
      have h2 : p = ct := congrArg Prod.snd h
      rw [← h2, if_pos h1.symm]
  · intro iv p iv2 p2 h
    simp only [toyAead] at h
    have h2 : p = p2 := congrArg Prod.snd h
    have h1 : iv ++ p = iv2 ++ p2 := congrArg Prod.fst h
    rw [← h2] at h1
    exact ⟨List.append_cancel_right h1, h2⟩
  · intro iv p p2 h
    simp only [toyAead] at h
    exact List.append_cancel_left h
  · intro iv p p2 h
    exact h
  · intro iv p hiv hp
    refine ⟨?_, hp⟩
    intro b hb
    rcases List.mem_append.mp hb with h1 | h2
    · exact hiv b h1
    · exact hp b h2

/-- Every hex digit emitted by `hexDigitChar` decodes back to its value. -/
theorem hexVal_hexDigitChar (n : Nat) (h : n < 16) : hexVal (hexDigitChar n) = some n := by
  interval_cases n <;> decide

/-- `hexDigitChar` never emits the separator. -/
theorem hexDigitChar_ne_colon (n : Nat) : hexDigitChar n ≠ ':' := by
  unfold hexDigitChar
  split <;> decide

/-- No character of the list is the separator. -/
def noColon (l : List Char) : Prop := ∀ c ∈ l, c ≠ ':'

theorem hexEncode_noColon (bs : List Nat) : noColon (hexEncode bs) := by
  induction bs with
  | nil => intro c hc; cases hc
  | cons b bs ih =>
    intro c hc
    simp only [hexEncode, List.mem_cons] at hc
    rcases hc with h | h | h
    · rw [h]; exact hexDigitChar_ne_colon _
    · rw [h]; exact hexDigitChar_ne_colon _
    · exact ih c h

theorem noColon_set (l : List Char) (j : Nat) (c : Char) (hl : noColon l) (hc : c ≠ ':') :
    noColon (l.set j c) := by
  intro x hx
  rcases List.mem_or_eq_of_mem_set hx with h | h
  · exact hl x h
  · rw [h]; exact hc

theorem splitColon_cons (c : Char) (r : List Char) :
    splitColon (c :: r) = match splitColon r with
      | [] => [[]]
      | seg :: segs => if c = ':' then [] :: seg :: segs else (c :: seg) :: segs := rfl

theorem splitColon_ne_nil (l : List Char) : splitColon l ≠ [] := by
  induction l with
  | nil => simp [splitColon]
  | cons c r ih =>
    rw [splitColon_cons]
    cases h : splitColon r with
    | nil => simp
    | cons seg segs =>
      show (if c = ':' then [] :: seg :: segs else (c :: seg) :: segs) ≠ []
      by_cases hc : c = ':'
      · rw [if_pos hc]; simp
      · rw [if_neg hc]; simp

theorem splitColon_noColon (a : List Char) (h : noColon a) : splitColon a = [a] := by
  induction a with
  | nil => rfl
  | cons c r ih =>
    have hc : c ≠ ':' := h c (List.mem_cons_self c r)
    have hr : noColon r := fun x hx => h x (List.mem_cons_of_mem c hx)
    simp only [splitColon, ih hr]
    rw [if_neg hc]

theorem splitColon_append (a r : List Char) (h : noColon a) :
    splitColon (a ++ ':' :: r) = a :: splitColon r := by
  induction a with
  | nil =>
    show splitColon (':' :: r) = [] :: splitColon r
    rw [splitColon_cons]
    cases hr : splitColon r with
    | nil => exact absurd hr (splitColon_ne_nil r)
    | cons seg segs =>
      show (if ':' = ':' then [] :: seg :: segs else (':' :: seg) :: segs) = [] :: seg :: segs
      rw [if_pos rfl]
  | cons c a2 ih =>
    have hc : c ≠ ':' := h c (List.mem_cons_self c a2)
    have ha2 : noColon a2 := fun x hx => h x (List.mem_cons_of_mem c hx)
    show splitColon (c :: (a2 ++ ':' :: r)) = (c :: a2) :: splitColon r
    rw [splitColon_cons, ih ha2]
    show (if c = ':' then [] :: a2 :: splitColon r else (c :: a2) :: splitColon r) =
      (c :: a2) :: splitColon r
    rw [if_neg hc]

/-- Decoding inverts encoding on byte lists. -/
theorem hexDecode_hexEncode (bs : List Nat) (h : bytes256 bs) :
    hexDecodePairs (hexEncode bs) = bs := by
  induction bs with
  | nil => rfl
  | cons b bs ih =>
    have hb : b < 256 := h b (List.mem_cons_self b bs)
    have hbs : bytes256 bs := fun x hx => h x (List.mem_cons_of_mem b hx)
    have h1 : hexVal (hexDigitChar (b / 16)) = some (b / 16) :=
      hexVal_hexDigitChar _ (by omega)
    have h2 : hexVal (hexDigitChar (b % 16)) = some (b % 16) :=
      hexVal_hexDigitChar _ (by omega)
    have h3 : 16 * (b / 16) + b % 16 = b := by omega
    simp only [hexEncode, hexDecodePairs, h1, h2, ih hbs, h3]

theorem hexEncode_length (bs : List Nat) : (hexEncode bs).length = 2 * bs.length := by
  induction bs with
  | nil => rfl
  | cons b bs ih =>
    simp only [hexEncode, List.length_cons, ih]
    omega

/-- Effect of overwriting one character of a hex encoding: positions inside the
encoding hold hex digits; replacing a digit by a character with the same hex
value leaves the decoded bytes unchanged, while any other replacement changes
them (possibly by truncation). -/
theorem hexEncode_set_decode (bs : List Nat) : ∀ (j : Nat) (c : Char), bytes256 bs →
    j < (hexEncode bs).length →
    (hexVal ((hexEncode bs).getD j ' ')).isSome = true ∧
    (hexVal c = hexVal ((hexEncode bs).getD j ' ') →
      hexDecodePairs ((hexEncode bs).set j c) = bs) ∧
    (hexVal c ≠ hexVal ((hexEncode bs).getD j ' ') →
      hexDecodePairs ((hexEncode bs).set j c) ≠ bs) := by
  induction bs with
  | nil => intro j c _ hj; simp [hexEncode] at hj
  | cons b bs ih =>
    intro j c hb hj
    have hb1 : b < 256 := hb b (List.mem_cons_self b bs)
    have hb2 : bytes256 bs := fun x hx => hb x (List.mem_cons_of_mem b hx)
    have hd1 : hexVal (hexDigitChar (b / 16)) = some (b / 16) :=
      hexVal_hexDigitChar _ (by omega)
    have hd2 : hexVal (hexDigitChar (b % 16)) = some (b % 16) :=
      hexVal_hexDigitChar _ (by omega)
    have hrt : hexDecodePairs (hexEncode bs) = bs := hexDecode_hexEncode bs hb2
    have hbeq : 16 * (b / 16) + b % 16 = b := by omega
    rcases j with _ | _ | j
    · refine ⟨?_, ?_, ?_⟩
      · simp [hexEncode, hd1]
      · intro hc
        rw [show (hexEncode (b :: bs)).getD 0 ' ' = hexDigitChar (b / 16) from rfl, hd1] at hc
        rw [show (hexEncode (b :: bs)).set 0 c =
          c :: hexDigitChar (b % 16) :: hexEncode bs from rfl]
        simp only [hexDecodePairs, hc, hd2, hrt, hbeq]
      · intro hc
        rw [show (hexEncode (b :: bs)).getD 0 ' ' = hexDigitChar (b / 16) from rfl, hd1] at hc
        rw [show (hexEncode (b :: bs)).set 0 c =
          c :: hexDigitChar (b % 16) :: hexEncode bs from rfl]
        cases hvc : hexVal c with
        | none => simp [hexDecodePairs, hvc]
        | some v =>
          have hv : v ≠ b / 16 := by
            intro hh; exact hc (by rw [hvc, hh])
          simp only [hexDecodePairs, hvc, hd2, hrt]
          intro heq
          injection heq with h1 h2
          omega
    · refine ⟨?_, ?_, ?_⟩
      · simp [hexEncode, hd2]
      · intro hc
        rw [show (hexEncode (b :: bs)).getD 1 ' ' = hexDigitChar (b % 16) from rfl, hd2] at hc
        rw [show (hexEncode (b :: bs)).set 1 c =
          hexDigitChar (b / 16) :: c :: hexEncode bs from rfl]
        simp only [hexDecodePairs, hc, hd1, hrt, hbeq]
      · intro hc
        rw [show (hexEncode (b :: bs)).getD 1 ' ' = hexDigitChar (b % 16) from rfl, hd2] at hc
        rw [show (hexEncode (b :: bs)).set 1 c =
          hexDigitChar (b / 16) :: c :: hexEncode bs from rfl]
        cases hvc : hexVal c with
        | none => simp [hexDecodePairs, hd1, hvc]
        | some v =>
          have hv : v ≠ b % 16 := by
            intro hh; exact hc (by rw [hvc, hh])
          simp only [hexDecodePairs, hvc, hd1, hrt]
          intro heq
          injection heq with h1 h2
          omega
    · have hj2 : j < (hexEncode bs).length := by
        simp only [hexEncode, List.length_cons] at hj
        omega
      obtain ⟨i1, i2, i3⟩ := ih j c hb2 hj2
      have hget : (hexEncode (b :: bs)).getD (j + 2) ' ' = (hexEncode bs).getD j ' ' := by
        simp [hexEncode, List.getD_cons_succ]
      have hset : (hexEncode (b :: bs)).set (j + 2) c =
          hexDigitChar (b / 16) :: hexDigitChar (b % 16) :: (hexEncode bs).set j c := by
        simp [hexEncode, List.set_cons_succ]
      refine ⟨by rw [hget]; exact i1, ?_, ?_⟩
      · intro hc
        rw [hget] at hc
        rw [hset]
        simp only [hexDecodePairs, hd1, hd2, i2 hc, hbeq]
      · intro hc
        rw [hget] at hc
        rw [hset]
        simp only [hexDecodePairs, hd1, hd2]
        intro heq
        injection heq with h1 h2
        exact i3 hc h2

/-- `decrypt` rejects any blob that does not split into exactly three
segments. -/
theorem decryptM_badFormat (A : Aead) (key : List Nat) (blob : List Char)
    (h : (splitColon blob).length ≠ 3) :
    decryptM A key blob = .error .badFormat := by
  unfold decryptM
  generalize hg : splitColon blob = l
  rw [hg] at h
  rcases l with _ | ⟨a, _ | ⟨b, _ | ⟨c, _ | ⟨d, t⟩⟩⟩⟩
  · rfl
  · rfl
  · rfl
  · exact absurd rfl h
  · rfl

/-- `decrypt` on a well-formed three-segment blob opens the AEAD on the three
decoded segments. -/
theorem decryptM_triple (A : Aead) (key : List Nat) (s1 s2 s3 : List Char)
    (h1 : noColon s1) (h2 : noColon s2) (h3 : noColon s3) :
    decryptM A key (s1 ++ ':' :: (s2 ++ ':' :: s3)) =
      match A.aeUnseal key (hexDecodePairs s1) (hexDecodePairs s2) (hexDecodePairs s3) with
      | some q => Except.ok q
      | none => Except.error CryptoErr.authFailed := by
  unfold decryptM
  rw [splitColon_append s1 _ h1, splitColon_append s2 _ h2, splitColon_noColon s3 h3]

/-- Overwriting a character of a colon-free segment with the separator splits
the segment in two. -/
theorem splitColon_set_colon (e r : List Char) (j : Nat) (he : noColon e)
    (hj : j < e.length) :
    splitColon (e.set j ':' ++ ':' :: r) = e.take j :: e.drop (j + 1) :: splitColon r := by
  have htk : noColon (e.take j) := fun x hx => he x (List.take_subset j e hx)
  have hdr : noColon (e.drop (j + 1)) := fun x hx => he x (List.drop_subset (j + 1) e hx)
  rw [List.set_eq_take_cons_drop ':' hj, List.append_assoc, List.cons_append,
    splitColon_append _ _ htk, splitColon_append _ _ hdr]

theorem splitColon_set_colon_last (e : List Char) (j : Nat) (he : noColon e)
    (hj : j < e.length) :
    splitColon (e.set j ':') = [e.take j, e.drop (j + 1)] := by
  have htk : noColon (e.take j) := fun x hx => he x (List.take_subset j e hx)
  have hdr : noColon (e.drop (j + 1)) := fun x hx => he x (List.drop_subset (j + 1) e hx)
  rw [List.set_eq_take_cons_drop ':' hj, splitColon_append _ _ htk,
    splitColon_noColon _ hdr]

/-- Under an ideal AEAD, opening with a different IV than the one used to seal
fails. -/
theorem aeUnseal_wrong_iv (A : Aead) (key : List Nat) (hA : IdealAead A key)
    (iv p iv2 : List Nat) (hne : iv2 ≠ iv) :
    A.aeUnseal key iv2 (A.aeSeal key iv p).1 (A.aeSeal key iv p).2 = none := by
  cases hu : A.aeUnseal key iv2 (A.aeSeal key iv p).1 (A.aeSeal key iv p).2 with
  | none => rfl
  | some q =>
    have hs := (hA.1 iv2 q _ _).mp hu
    rw [Prod.mk.eta] at hs
    exact absurd (hA.2.1 iv2 q iv p hs).1 hne

/-- Under an ideal AEAD, opening with a tampered auth tag fails. -/
theorem aeUnseal_wrong_tag (A : Aead) (key : List Nat) (hA : IdealAead A key)
    (iv p tag2 : List Nat) (hne : tag2 ≠ (A.aeSeal key iv p).1) :
    A.aeUnseal key iv tag2 (A.aeSeal key iv p).2 = none := by
  cases hu : A.aeUnseal key iv tag2 (A.aeSeal key iv p).2 with
  | none => rfl
  | some q =>
    have hs := (hA.1 iv q _ _).mp hu
    have hct : (A.aeSeal key iv q).2 = (A.aeSeal key iv p).2 := by rw [hs]
    have hq : q = p := hA.2.2.2.1 iv q p hct
    have h1 : (A.aeSeal key iv q).1 = tag2 := by rw [hs]
    rw [hq] at h1
    exact absurd h1.symm hne

/-- Under an ideal AEAD, opening with a tampered ciphertext fails. -/
theorem aeUnseal_wrong_ct (A : Aead) (key : List Nat) (hA : IdealAead A key)
    (iv p ct2 : List Nat) (hne : ct2 ≠ (A.aeSeal key iv p).2) :
    A.aeUnseal key iv (A.aeSeal key iv p).1 ct2 = none := by
  cases hu : A.aeUnseal key iv (A.aeSeal key iv p).1 ct2 with
  | none => rfl
  | some q =>
    have hs := (hA.1 iv q _ _).mp hu
    have htg : (A.aeSeal key iv q).1 = (A.aeSeal key iv p).1 := by rw [hs]
    have hq : q = p := hA.2.2.1 iv q p htg
    have h2 : (A.aeSeal key iv q).2 = ct2 := by rw [hs]
    rw [hq] at h2
    exact absurd h2.symm hne

/-- The blob shape of `encrypt`, reassociated into three segments. -/
theorem encryptM_shape (A : Aead) (key iv p : List Nat) :
    encryptM A key iv p = hexEncode iv ++ ':' ::
      (hexEncode (A.aeSeal key iv p).1 ++ ':' :: hexEncode (A.aeSeal key iv p).2) := by
  unfold encryptM
  rw [List.append_assoc, List.cons_append]

/-- C2 (amended): under an ideal AEAD with a fixed key (Node AES-256-GCM),
`decrypt` inverts `encrypt`; a blob that does not split into exactly three
colon-separated segments is rejected as malformed; a blob whose IV segment
decodes to any byte string other than the sealing IV — in particular a nonce
of the wrong length — fails authentication; and overwriting one character of
an `encrypt` output decrypts to the original plaintext exactly when the new
character is a hex digit with the same value as the replaced one (Node hex
decoding is case-insensitive), while every other overwrite is rejected with
an error. -/
theorem encrypt_decrypt_roundtrip_tamper (A : Aead) (key : List Nat)
    (hA : IdealAead A key) :
    (∀ iv p, bytes256 iv → bytes256 p →
      decryptM A key (encryptM A key iv p) = .ok p) ∧
    (∀ blob, (splitColon blob).length ≠ 3 → decryptM A key blob = .error .badFormat) ∧
    (∀ iv p iv2, bytes256 iv → bytes256 p → bytes256 iv2 → iv2 ≠ iv →
      decryptM A key (hexEncode iv2 ++ ':' ::
        (hexEncode (A.aeSeal key iv p).1 ++ ':' :: hexEncode (A.aeSeal key iv p).2)) =
        .error .authFailed) ∧
    (∀ iv p i c, bytes256 iv → bytes256 p → i < (encryptM A key iv p).length →
      c ≠ (encryptM A key iv p).getD i ' ' →
      (hexVal c = hexVal ((encryptM A key iv p).getD i ' ') ∧ (hexVal c).isSome = true →
        decryptM A key ((encryptM A key iv p).set i c) = .ok p) ∧
      (¬(hexVal c = hexVal ((encryptM A key iv p).getD i ' ') ∧ (hexVal c).isSome = true) →
        ∃ e, decryptM A key ((encryptM A key iv p).set i c) = .error e)) := by
  refine ⟨?_, ?_, ?_, ?_⟩
  · intro iv p hiv hp
    obtain ⟨ht256, hc256⟩ := hA.2.2.2.2 iv p hiv hp
    rw [encryptM_shape,
      decryptM_triple A key _ _ _ (hexEncode_noColon iv) (hexEncode_noColon _)
        (hexEncode_noColon _),
      hexDecode_hexEncode iv hiv, hexDecode_hexEncode _ ht256, hexDecode_hexEncode _ hc256,
      (hA.1 iv p (A.aeSeal key iv p).1 (A.aeSeal key iv p).2).mpr Prod.mk.eta.symm]
  · intro blob hlen
    exact decryptM_badFormat A key blob hlen
  · intro iv p iv2 hiv hp hiv2 hne
    obtain ⟨ht256, hc256⟩ := hA.2.2.2.2 iv p hiv hp
    rw [decryptM_triple A key _ _ _ (hexEncode_noColon iv2) (hexEncode_noColon _)
        (hexEncode_noColon _),
      hexDecode_hexEncode iv2 hiv2, hexDecode_hexEncode _ ht256, hexDecode_hexEncode _ hc256,
      aeUnseal_wrong_iv A key hA iv p iv2 hne]
  · intro iv p i c hiv hp hi hneq
    obtain ⟨ht256, hc256⟩ := hA.2.2.2.2 iv p hiv hp
    rw [encryptM_shape] at hi hneq ⊢
    simp only [List.length_append, List.length_cons] at hi
    have hsplit : i < (hexEncode iv).length ∨ i = (hexEncode iv).length ∨
        ((hexEncode iv).length + 1 ≤ i ∧
          i < (hexEncode iv).length + 1 + (hexEncode (A.aeSeal key iv p).1).length) ∨
        i = (hexEncode iv).length + 1 + (hexEncode (A.aeSeal key iv p).1).length ∨
        ((hexEncode iv).length + 1 + (hexEncode (A.aeSeal key iv p).1).length + 1 ≤ i ∧
          i < (hexEncode iv).length + 1 + (hexEncode (A.aeSeal key iv p).1).length + 1 +
            (hexEncode (A.aeSeal key iv p).2).length) := by omega
    rcases hsplit with hr | hr | ⟨hr1, hr2⟩ | hr | ⟨hr1, hr2⟩
    · -- overwrite inside the IV segment
      have hget : (hexEncode iv ++ ':' :: (hexEncode (A.aeSeal key iv p).1 ++ ':' ::
          hexEncode (A.aeSeal key iv p).2)).getD i ' ' = (hexEncode iv).getD i ' ' :=
        List.getD_append _ _ _ i hr
      have hset : (hexEncode iv ++ ':' :: (hexEncode (A.aeSeal key iv p).1 ++ ':' ::
          hexEncode (A.aeSeal key iv p).2)).set i c =
          (hexEncode iv).set i c ++ ':' :: (hexEncode (A.aeSeal key iv p).1 ++ ':' ::
          hexEncode (A.aeSeal key iv p).2) := by
        rw [List.set_append, if_pos hr]
      obtain ⟨io, ieq, ine⟩ := hexEncode_set_decode iv i c hiv hr
      constructor
      · rintro ⟨hc1, hc2⟩
        rw [hget] at hc1
        have hcc : c ≠ ':' := by
          intro h; rw [h] at hc2; exact absurd hc2 (by decide)
        rw [hset, decryptM_triple A key _ _ _ (noColon_set _ i c (hexEncode_noColon iv) hcc)
            (hexEncode_noColon _) (hexEncode_noColon _),
          ieq hc1, hexDecode_hexEncode _ ht256, hexDecode_hexEncode _ hc256,
          (hA.1 iv p (A.aeSeal key iv p).1 (A.aeSeal key iv p).2).mpr Prod.mk.eta.symm]
      · intro hnc
        by_cases hcc : c = ':'
        · refine ⟨.badFormat, ?_⟩
          subst hcc
          rw [hset]
          apply decryptM_badFormat
          rw [splitColon_set_colon _ _ i (hexEncode_noColon iv) hr,
            splitColon_append _ _ (hexEncode_noColon _),
            splitColon_noColon _ (hexEncode_noColon _)]
          simp
        · have hvne : hexVal c ≠ hexVal ((hexEncode iv).getD i ' ') := by
            intro h
            exact hnc ⟨by rw [hget]; exact h, by rw [h]; exact io⟩
          refine ⟨.authFailed, ?_⟩
          rw [hset, decryptM_triple A key _ _ _ (noColon_set _ i c (hexEncode_noColon iv) hcc)
              (hexEncode_noColon _) (hexEncode_noColon _),
            hexDecode_hexEncode _ ht256, hexDecode_hexEncode _ hc256,
            aeUnseal_wrong_iv A key hA iv p _ (ine hvne)]
    · -- overwrite of the first separator
      subst hr
      have hget : (hexEncode iv ++ ':' :: (hexEncode (A.aeSeal key iv p).1 ++ ':' ::
          hexEncode (A.aeSeal key iv p).2)).getD (hexEncode iv).length ' ' = ':' := by
        rw [List.getD_append_right _ _ _ _ (le_refl _), Nat.sub_self, List.getD_cons_zero]
      have hcc : c ≠ ':' := by rw [hget] at hneq; exact hneq
      have hset : (hexEncode iv ++ ':' :: (hexEncode (A.aeSeal key iv p).1 ++ ':' ::
          hexEncode (A.aeSeal key iv p).2)).set (hexEncode iv).length c =
          hexEncode iv ++ c :: (hexEncode (A.aeSeal key iv p).1 ++ ':' ::
          hexEncode (A.aeSeal key iv p).2) := by
        rw [List.set_append, if_neg (by omega), Nat.sub_self, List.set_cons_zero]
      constructor
      · rintro ⟨hc1, hc2⟩
        rw [hget] at hc1
        rw [hc1] at hc2
        exact absurd hc2 (by decide)
      · intro _
        refine ⟨.badFormat, ?_⟩
        rw [hset]
        apply decryptM_badFormat
        have hre : hexEncode iv ++ c :: (hexEncode (A.aeSeal key iv p).1 ++ ':' ::
            hexEncode (A.aeSeal key iv p).2) =
            (hexEncode iv ++ c :: hexEncode (A.aeSeal key iv p).1) ++ ':' ::
            hexEncode (A.aeSeal key iv p).2 := by
          rw [List.append_assoc, List.cons_append]
        have hnc1 : noColon (hexEncode iv ++ c :: hexEncode (A.aeSeal key iv p).1) := by
          intro x hx
          rcases List.mem_append.mp hx with h | h
          · exact hexEncode_noColon iv x h
          · rcases List.mem_cons.mp h with h | h
            · rw [h]; exact hcc
            · exact hexEncode_noColon _ x h
        rw [hre, splitColon_append _ _ hnc1, splitColon_noColon _ (hexEncode_noColon _)]
        simp
    · -- overwrite inside the auth-tag segment
      obtain ⟨j, hj, rfl⟩ : ∃ j, j < (hexEncode (A.aeSeal key iv p).1).length ∧
          i = (hexEncode iv).length + 1 + j :=
        ⟨i - ((hexEncode iv).length + 1), by omega, by omega⟩
      have hget : (hexEncode iv ++ ':' :: (hexEncode (A.aeSeal key iv p).1 ++ ':' ::
          hexEncode (A.aeSeal key iv p).2)).getD ((hexEncode iv).length + 1 + j) ' ' =
          (hexEncode (A.aeSeal key iv p).1).getD j ' ' := by
        rw [List.getD_append_right _ _ _ _ (by omega),
          show (hexEncode iv).length + 1 + j - (hexEncode iv).length = j + 1 from by omega,
          List.getD_cons_succ, List.getD_append _ _ _ j hj]
      have hset : (hexEncode iv ++ ':' :: (hexEncode (A.aeSeal key iv p).1 ++ ':' ::
          hexEncode (A.aeSeal key iv p).2)).set ((hexEncode iv).length + 1 + j) c =
          hexEncode iv ++ ':' :: ((hexEncode (A.aeSeal key iv p).1).set j c ++ ':' ::
          hexEncode (A.aeSeal key iv p).2) := by
        rw [List.set_append, if_neg (by omega),
          show (hexEncode iv).length + 1 + j - (hexEncode iv).length = j + 1 from by omega,
          List.set_cons_succ, List.set_append, if_pos hj]
      obtain ⟨io, ieq, ine⟩ := hexEncode_set_decode (A.aeSeal key iv p).1 j c ht256 hj
      constructor
      · rintro ⟨hc1, hc2⟩
        rw [hget] at hc1
        have hcc : c ≠ ':' := by
          intro h; rw [h] at hc2; exact absurd hc2 (by decide)
        rw [hset, decryptM_triple A key _ _ _ (hexEncode_noColon iv)
            (noColon_set _ j c (hexEncode_noColon _) hcc) (hexEncode_noColon _),
          hexDecode_hexEncode iv hiv, ieq hc1, hexDecode_hexEncode _ hc256,
          (hA.1 iv p (A.aeSeal key iv p).1 (A.aeSeal key iv p).2).mpr Prod.mk.eta.symm]
      · intro hnc
        by_cases hcc : c = ':'
        · refine ⟨.badFormat, ?_⟩
          subst hcc
          rw [hset]
          apply decryptM_badFormat
          rw [splitColon_append _ _ (hexEncode_noColon iv),
            splitColon_set_colon _ _ j (hexEncode_noColon _) hj,
            splitColon_noColon _ (hexEncode_noColon _)]
          simp
        · have hvne : hexVal c ≠ hexVal ((hexEncode (A.aeSeal key iv p).1).getD j ' ') := by
            intro h
            exact hnc ⟨by rw [hget]; exact h, by rw [h]; exact io⟩
          refine ⟨.authFailed, ?_⟩
          rw [hset, decryptM_triple A key _ _ _ (hexEncode_noColon iv)
              (noColon_set _ j c (hexEncode_noColon _) hcc) (hexEncode_noColon _),
            hexDecode_hexEncode iv hiv, hexDecode_hexEncode _ hc256,
            aeUnseal_wrong_tag A key hA iv p _ (ine hvne)]
    · -- overwrite of the second separator
      subst hr
      have hget : (hexEncode iv ++ ':' :: (hexEncode (A.aeSeal key iv p).1 ++ ':' ::
          hexEncode (A.aeSeal key iv p).2)).getD
            ((hexEncode iv).length + 1 + (hexEncode (A.aeSeal key iv p).1).length) ' ' =
          ':' := by
        rw [List.getD_append_right _ _ _ _ (by omega),
          show (hexEncode iv).length + 1 + (hexEncode (A.aeSeal key iv p).1).length -
            (hexEncode iv).length = (hexEncode (A.aeSeal key iv p).1).length + 1 from by omega,
          List.getD_cons_succ, List.getD_append_right _ _ _ _ (le_refl _), Nat.sub_self,
          List.getD_cons_zero]
      have hcc : c ≠ ':' := by rw [hget] at hneq; exact hneq
      have hset : (hexEncode iv ++ ':' :: (hexEncode (A.aeSeal key iv p).1 ++ ':' ::
          hexEncode (A.aeSeal key iv p).2)).set
            ((hexEncode iv).length + 1 + (hexEncode (A.aeSeal key iv p).1).length) c =
          hexEncode iv ++ ':' :: (hexEncode (A.aeSeal key iv p).1 ++ c ::
          hexEncode (A.aeSeal key iv p).2) := by
        rw [List.set_append, if_neg (by omega),
          show (hexEncode iv).length + 1 + (hexEncode (A.aeSeal key iv p).1).length -
            (hexEncode iv).length = (hexEncode (A.aeSeal key iv p).1).length + 1 from by omega,
          List.set_cons_succ, List.set_append, if_neg (by omega), Nat.sub_self,
          List.set_cons_zero]
      constructor
      · rintro ⟨hc1, hc2⟩
        rw [hget] at hc1
        rw [hc1] at hc2
        exact absurd hc2 (by decide)
      · intro _
        refine ⟨.badFormat, ?_⟩
        rw [hset]
        apply decryptM_badFormat
        have hnc2 : noColon (hexEncode (A.aeSeal key iv p).1 ++ c ::
            hexEncode (A.aeSeal key iv p).2) := by
          intro x hx
          rcases List.mem_append.mp hx with h | h
          · exact hexEncode_noColon _ x h
          · rcases List.mem_cons.mp h with h | h
            · rw [h]; exact hcc
            · exact hexEncode_noColon _ x h
        rw [splitColon_append _ _ (hexEncode_noColon iv), splitColon_noColon _ hnc2]
        simp
    · -- overwrite inside the ciphertext segment
      obtain ⟨j, hj, rfl⟩ : ∃ j, j < (hexEncode (A.aeSeal key iv p).2).length ∧
          i = (hexEncode iv).length + 1 + (hexEncode (A.aeSeal key iv p).1).length + 1 + j :=
        ⟨i - ((hexEncode iv).length + 1 + (hexEncode (A.aeSeal key iv p).1).length + 1),
          by omega, by omega⟩
      have hget : (hexEncode iv ++ ':' :: (hexEncode (A.aeSeal key iv p).1 ++ ':' ::
          hexEncode (A.aeSeal key iv p).2)).getD
            ((hexEncode iv).length + 1 + (hexEncode (A.aeSeal key iv p).1).length + 1 + j) ' ' =
          (hexEncode (A.aeSeal key iv p).2).getD j ' ' := by
        rw [List.getD_append_right _ _ _ _ (by omega),
          show (hexEncode iv).length + 1 + (hexEncode (A.aeSeal key iv p).1).length + 1 + j -
            (hexEncode iv).length = (hexEncode (A.aeSeal key iv p).1).length + 1 + j + 1
            from by omega,
          List.getD_cons_succ, List.getD_append_right _ _ _ _ (by omega),
          show (hexEncode (A.aeSeal key iv p).1).length + 1 + j -
            (hexEncode (A.aeSeal key iv p).1).length = j + 1 from by omega,
          List.getD_cons_succ]
      have hset : (hexEncode iv ++ ':' :: (hexEncode (A.aeSeal key iv p).1 ++ ':' ::
          hexEncode (A.aeSeal key iv p).2)).set
            ((hexEncode iv).length + 1 + (hexEncode (A.aeSeal key iv p).1).length + 1 + j) c =
          hexEncode iv ++ ':' :: (hexEncode (A.aeSeal key iv p).1 ++ ':' ::
          (hexEncode (A.aeSeal key iv p).2).set j c) := by
        rw [List.set_append, if_neg (by omega),
          show (hexEncode iv).length + 1 + (hexEncode (A.aeSeal key iv p).1).length + 1 + j -
            (hexEncode iv).length = (hexEncode (A.aeSeal key iv p).1).length + 1 + j + 1
            from by omega,
          List.set_cons_succ, List.set_append, if_neg (by omega),
          show (hexEncode (A.aeSeal key iv p).1).length + 1 + j -
            (hexEncode (A.aeSeal key iv p).1).length = j + 1 from by omega,
          List.set_cons_succ]
      obtain ⟨io, ieq, ine⟩ := hexEncode_set_decode (A.aeSeal key iv p).2 j c hc256 hj
      constructor
      · rintro ⟨hc1, hc2⟩
        rw [hget] at hc1
        have hcc : c ≠ ':' := by
          intro h; rw [h] at hc2; exact absurd hc2 (by decide)
        rw [hset, decryptM_triple A key _ _ _ (hexEncode_noColon iv) (hexEncode_noColon _)
            (noColon_set _ j c (hexEncode_noColon _) hcc),
          hexDecode_hexEncode iv hiv, hexDecode_hexEncode _ ht256, ieq hc1,
          (hA.1 iv p (A.aeSeal key iv p).1 (A.aeSeal key iv p).2).mpr Prod.mk.eta.symm]
      · intro hnc
        by_cases hcc : c = ':'
        · refine ⟨.badFormat, ?_⟩
          subst hcc
          rw [hset]
          apply decryptM_badFormat
          rw [splitColon_append _ _ (hexEncode_noColon iv),
            splitColon_append _ _ (hexEncode_noColon _),
            splitColon_set_colon_last _ j (hexEncode_noColon _) hj]
          simp
        · have hvne : hexVal c ≠ hexVal ((hexEncode (A.aeSeal key iv p).2).getD j ' ') := by
            intro h
            exact hnc ⟨by rw [hget]; exact h, by rw [h]; exact io⟩
          refine ⟨.authFailed, ?_⟩
          rw [hset, decryptM_triple A key _ _ _ (hexEncode_noColon iv) (hexEncode_noColon _)
              (noColon_set _ j c (hexEncode_noColon _) hcc),
            hexDecode_hexEncode iv hiv, hexDecode_hexEncode _ ht256,
            aeUnseal_wrong_ct A key hA iv p _ (ine hvne)]

/-- C2 counterexample: the claim says `decrypt` fails for any byte-flipped
output of `encrypt`, but Node hex decoding is case-insensitive.  Upper-casing
the first hex digit of the blob is a genuine byte change of the blob string,
yet the tampered blob still decrypts to the original plaintext. -/
theorem decrypt_byte_flip_counterexample :
    (encryptM toyAead [] [171] [1]).getD 0 ' ' = 'a' ∧
    ('A' ≠ 'a') ∧
    decryptM toyAead [] ((encryptM toyAead [] [171] [1]).set 0 'A') = .ok [1] := by
  refine ⟨rfl, by decide, rfl⟩

/-- Witness for C2 (amended): the toy ideal cipher at concrete bytes
exercises the round-trip, the malformed-format rejection, the wrong-nonce
rejection and the flip dichotomy. -/
theorem encrypt_decrypt_roundtrip_tamper_witness :
    decryptM toyAead [] (encryptM toyAead [] [171] [1]) = .ok [1] ∧
    decryptM toyAead [] ['a', 'b'] = .error .badFormat ∧
    decryptM toyAead [] (hexEncode [5] ++ ':' ::
      (hexEncode (toyAead.aeSeal [] [171] [1]).1 ++ ':' ::
        hexEncode (toyAead.aeSeal [] [171] [1]).2)) = .error .authFailed ∧
    (∃ e, decryptM toyAead [] ((encryptM toyAead [] [171] [1]).set 0 'c') = .error e) := by
  obtain ⟨h1, h2, h3, h4⟩ := encrypt_decrypt_roundtrip_tamper toyAead [] (toyAead_ideal [])
  refine ⟨h1 [171] [1] (by unfold bytes256; decide) (by unfold bytes256; decide),
    h2 ['a', 'b'] (by decide),
    h3 [171] [1] [5] (by unfold bytes256; decide) (by unfold bytes256; decide)
      (by unfold bytes256; decide) (by decide),
    (h4 [171] [1] 0 'c' (by unfold bytes256; decide) (by unfold bytes256; decide)
      (by decide) (by decide)).2 (by decide)⟩
